import Mathlib

/-!
Verification of the `travesty.cantrips.error_aggregator` module.

The module defines `NestedException` (an exception holding a list of own
errors plus an ordered mapping from string keys to nested sub-exceptions)
and `ErrorAggregator` (a helper that accumulates errors into one
`NestedException` and optionally raises it).

We embed the data model shallowly: a Python exception value is either a
plain exception (opaque beyond its message string) or a `NestedException`;
the `OrderedDict` of sub-errors is an association list preserving insertion
order.  The mutating Python methods become pure functions returning the
updated tree; operations that may raise return the raised value explicitly.
-/

set_option autoImplicit false

namespace Travesty

mutual

/-- A Python exception value: either a plain (non-nested) exception,
identified by its `str()` rendering, or a `NestedException`. -/
inductive Exc where
  | plain (msg : String)
  | nested (t : NestedException)

/-- `NestedException.__init__`: `own_errors` is the list of root errors,
`sub_errors` the `OrderedDict` from keys to nested exceptions, modelled as
an association list in insertion order. -/
inductive NestedException where
  | mk (own_errors : List Exc) (sub_errors : List (String × NestedException))

end

/-- Field accessor for `own_errors`. -/
def NestedException.own_errors : NestedException → List Exc
  | .mk o _ => o

/-- Field accessor for `sub_errors`. -/
def NestedException.sub_errors : NestedException → List (String × NestedException)
  | .mk _ s => s

/-- `NestedException()`: a freshly constructed exception with empty
`own_errors` and empty `sub_errors`. -/
def NestedException.empty : NestedException := .mk [] []

lemma sizeOf_list_pos {α : Type} [SizeOf α] (l : List α) : 0 < sizeOf l := by
  cases l <;> simp

/-- `OrderedDict.__getitem__` / `in`: first value stored under a key. -/
def lookupSub (k : String) : List (String × NestedException) → Option NestedException
  | [] => none
  | p :: rest => if p.1 = k then some p.2 else lookupSub k rest

mutual

/-- `NestedException.add_own`: merge if the argument is a `NestedException`,
otherwise append it to `own_errors`. -/
def NestedException.add_own : NestedException → Exc → NestedException
  | .mk o s, .plain m => .mk (o ++ [.plain m]) s
  | n, .nested t => NestedException.merge n t
termination_by n e => (sizeOf e, 0)
decreasing_by
  all_goals simp_wf
  all_goals first
    | (apply Prod.Lex.left; omega)
    | (apply Prod.Lex.right; omega)

/-- `NestedException.add_sub`:
`self.sub_errors.setdefault(key, type(self)()).add_own(exc)`. -/
def NestedException.add_sub (n : NestedException) (k : String) (e : Exc) :
    NestedException :=
  match n with
  | .mk o s => .mk o (setdefaultAdd s k e)
termination_by (sizeOf e + 1, 0)
decreasing_by
  all_goals simp_wf
  all_goals first
    | (apply Prod.Lex.left; omega)
    | (apply Prod.Lex.right; omega)

/-- `OrderedDict.setdefault(key, NestedException())` followed by
`.add_own(exc)` on the returned child: if the key is present the stored
child receives `add_own exc` in place; otherwise a fresh child holding
`add_own exc` is appended at the end (insertion order of `OrderedDict`). -/
def setdefaultAdd :
    List (String × NestedException) → String → Exc → List (String × NestedException)
  | [], k, e => [(k, NestedException.add_own (.mk [] []) e)]
  | p :: rest, k, e =>
    if p.1 = k then (p.1, NestedException.add_own p.2 e) :: rest
    else p :: setdefaultAdd rest k e
termination_by l k e => (sizeOf e, sizeOf l)
decreasing_by
  all_goals simp_wf
  all_goals first
    | (apply Prod.Lex.left; omega)
    | (apply Prod.Lex.right; omega)

/-- `NestedException.merge`: replay `other`'s own errors through `add_own`,
then replay each `(key, sub)` of `other.sub_errors` through `add_sub`. -/
def NestedException.merge : NestedException → NestedException → NestedException
  | n, .mk o s => mergeSubs (mergeOwn n o) s
termination_by n t => (sizeOf t, 0)
decreasing_by
  all_goals simp_wf
  all_goals first
    | (apply Prod.Lex.left; omega)
    | (apply Prod.Lex.right; omega)

/-- The first loop of `merge`: `for own in other.own_errors: self.add_own(own)`. -/
def mergeOwn : NestedException → List Exc → NestedException
  | n, [] => n
  | n, e :: es => mergeOwn (NestedException.add_own n e) es
termination_by n l => (sizeOf l, 0)
decreasing_by
  all_goals simp_wf
  all_goals first
    | (apply Prod.Lex.left; omega)
    | (apply Prod.Lex.right; omega)

/-- The second loop of `merge`:
`for key, sub in other.sub_errors.items(): self.add_sub(key, sub)`. -/
def mergeSubs : NestedException → List (String × NestedException) → NestedException
  | n, [] => n
  | n, (k, s) :: rest => mergeSubs (NestedException.add_sub n k (.nested s)) rest
termination_by n l => (sizeOf l, 0)
decreasing_by
  all_goals simp_wf
  all_goals first
    | (apply Prod.Lex.left; omega)
    | (apply Prod.Lex.left; have := sizeOf_list_pos rest; omega)
    | (apply Prod.Lex.right; omega)

end

/-- One step of the insertion sort modelling Python `sorted` on the items of
`sub_errors` (each item already rendered to a `(key, string)` pair): the
element is placed before the first strictly greater key, so elements equal
to it keep their original relative order (Python's sort is stable). -/
def insertPair (p : String × String) :
    List (String × String) → List (String × String)
  | [] => [p]
  | q :: rest => if p.1 ≤ q.1 then p :: q :: rest else q :: insertPair p rest

/-- Python `sorted(self.sub_errors.items())`: stable sort by key ascending
(keys of an `OrderedDict` are distinct, so the values never take part in the
comparison). -/
def sortPairs : List (String × String) → List (String × String)
  | [] => []
  | p :: rest => insertPair p (sortPairs rest)

mutual

/-- Python `str(err)`: the message of a plain exception, or
`NestedException.__str__` for a nested one. -/
def Exc.str : Exc → String
  | .plain m => m
  | .nested t => NestedException.str_ t
termination_by e => sizeOf e
decreasing_by
  all_goals simp_wf
  all_goals omega

/-- `NestedException.__str__`: `"<no message>"` when there are no own errors
and no sub errors; otherwise the comma-joined own errors and the
comma-joined `"key: [sub]"` renderings (sub errors sorted by key) joined by
`"; "`, empty parts dropped. -/
def NestedException.str_ : NestedException → String
  | .mk o s =>
    if o.length + s.length = 0 then "<no message>"
    else
      String.intercalate "; "
        (List.filter (fun x => x ≠ "")
          [String.intercalate ", " (strList o),
           String.intercalate ", "
             ((sortPairs (strSubs s)).map (fun p => p.1 ++ ": [" ++ p.2 ++ "]"))])
termination_by t => sizeOf t
decreasing_by
  all_goals simp_wf
  all_goals omega

/-- `str(err) for err in self.own_errors`. -/
def strList : List Exc → List String
  | [] => []
  | e :: es => Exc.str e :: strList es
termination_by l => sizeOf l
decreasing_by
  all_goals simp_wf
  all_goals omega

/-- `(key, str(err)) for (key, err) in self.sub_errors.items()`. -/
def strSubs : List (String × NestedException) → List (String × String)
  | [] => []
  | (k, t) :: rest => (k, NestedException.str_ t) :: strSubs rest
termination_by l => sizeOf l
decreasing_by
  all_goals simp_wf
  all_goals omega

end

/-- `NestedException.own_str`: `"<no message>"` when `own_errors` is empty,
otherwise the comma-joined renderings of the own errors only. -/
def NestedException.own_str (n : NestedException) : String :=
  if n.own_errors.length = 0 then "<no message>"
  else String.intercalate ", " (strList n.own_errors)

/-- `NestedException.__nonzero__` (and `__bool__`): true iff `own_errors`
or `sub_errors` is non-empty.  Note this test is NOT recursive: a child that
is itself an empty `NestedException` still makes the parent truthy. -/
def NestedException.nonzero (n : NestedException) : Bool :=
  !n.own_errors.isEmpty || !n.sub_errors.isEmpty

/-- The failures `NestedException.__getitem__` can raise. -/
inductive LookupErr where
  | indexError
  | keyError
deriving DecidableEq, Repr

/-- Python list indexing `self.own_errors[item]` for an `int` item:
negative indices count from the end, out-of-range raises `IndexError`. -/
def pyIndex (l : List Exc) (i : Int) : Except LookupErr Exc :=
  let j : Int := if i < 0 then i + l.length else i
  if j < 0 then .error .indexError
  else match l.get? j.toNat with
    | some e => .ok e
    | none => .error .indexError

/-- `NestedException.__getitem__`: an `int` item indexes `own_errors`, any
other item is looked up in `sub_errors` (raising `KeyError` when absent). -/
def NestedException.getItem (n : NestedException) : Int ⊕ String → Except LookupErr Exc
  | .inl i => pyIndex n.own_errors i
  | .inr k =>
    match lookupSub k n.sub_errors with
    | some s => .ok (.nested s)
    | none => .error .keyError

/-- `ErrorAggregator.__init__`: holds one `NestedException` (`self.error`)
and the `autoraise` flag.  The `catch_type` class attribute is modelled as a
predicate argument of the context-manager operations. -/
structure ErrorAggregator where
  error : NestedException
  autoraise : Bool

/-- `ErrorAggregator(autoraise=...)`: fresh aggregator with an empty error. -/
def ErrorAggregator.init (autoraise : Bool) : ErrorAggregator :=
  ⟨.mk [] [], autoraise⟩

/-- `ErrorAggregator.own_error`: add to `self.error`; when `autoraise` is
set, raise `self.error` (the whole accumulated tree).  The second component
is the exception raised by the call, if any. -/
def ErrorAggregator.own_error (a : ErrorAggregator) (err : Exc) :
    ErrorAggregator × Option NestedException :=
  let e := a.error.add_own err
  (⟨e, a.autoraise⟩, if a.autoraise then some e else none)

/-- `ErrorAggregator.sub_error`: add under a key; same autoraise rule. -/
def ErrorAggregator.sub_error (a : ErrorAggregator) (k : String) (err : Exc) :
    ErrorAggregator × Option NestedException :=
  let e := a.error.add_sub k err
  (⟨e, a.autoraise⟩, if a.autoraise then some e else none)

/-- Outcome of running a body under `checking` / `checking_sub`: normal
completion, the aggregate `NestedException` raised by autoraise, or an
uncaught exception propagating unmodified. -/
inductive RunResult where
  | ok
  | raisedTree (t : NestedException)
  | propagated (e : Exc)

/-- `ErrorAggregator.checking`: run the body; an exception whose type
matches `catch_type` is passed to `own_error` (which may itself raise the
aggregate under autoraise); any other exception propagates untouched. -/
def ErrorAggregator.checking (catch_type : Exc → Bool) (a : ErrorAggregator)
    (body : Except Exc Unit) : ErrorAggregator × RunResult :=
  match body with
  | .ok _ => (a, .ok)
  | .error e =>
    if catch_type e then
      match a.own_error e with
      | (a2, some t) => (a2, .raisedTree t)
      | (a2, none) => (a2, .ok)
    else (a, .propagated e)

/-- `ErrorAggregator.checking_sub`: like `checking` but caught exceptions go
to `sub_error key`. -/
def ErrorAggregator.checking_sub (catch_type : Exc → Bool) (a : ErrorAggregator)
    (key : String) (body : Except Exc Unit) : ErrorAggregator × RunResult :=
  match body with
  | .ok _ => (a, .ok)
  | .error e =>
    if catch_type e then
      match a.sub_error key e with
      | (a2, some t) => (a2, .raisedTree t)
      | (a2, none) => (a2, .ok)
    else (a, .propagated e)

/-- `ErrorAggregator.has_errors`: truthiness of `self.error`. -/
def ErrorAggregator.has_errors (a : ErrorAggregator) : Bool :=
  a.error.nonzero

/-- `ErrorAggregator.raise_if_any`: raise `self.error` iff `has_errors()`;
the result is the exception raised, if any. -/
def ErrorAggregator.raise_if_any (a : ErrorAggregator) : Option NestedException :=
  if a.has_errors then some a.error else none

/-- Whether an exception value is a plain (non-`NestedException`) one. -/
def Exc.isPlain : Exc → Bool
  | .plain _ => true
  | .nested _ => false

/-- The effect of `merge`'s second loop on the `sub_errors` list alone. -/
def subsFold (acc : List (String × NestedException)) :
    List (String × NestedException) → List (String × NestedException)
  | [] => acc
  | (k, s) :: rest => subsFold (setdefaultAdd acc k (.nested s)) rest

@[simp] lemma own_errors_mk (o : List Exc) (s : List (String × NestedException)) :
    (NestedException.mk o s).own_errors = o := rfl

@[simp] lemma sub_errors_mk (o : List Exc) (s : List (String × NestedException)) :
    (NestedException.mk o s).sub_errors = s := rfl

lemma NestedException.eq_of_parts {a b : NestedException}
    (h1 : a.own_errors = b.own_errors) (h2 : a.sub_errors = b.sub_errors) :
    a = b := by
  cases a
  cases b
  simp only [own_errors_mk, sub_errors_mk] at h1 h2
  rw [h1, h2]

lemma add_own_plain (n : NestedException) (m : String) :
    n.add_own (.plain m) = .mk (n.own_errors ++ [.plain m]) n.sub_errors := by
  cases n
  simp [NestedException.add_own]

lemma add_own_nested (n t : NestedException) :
    n.add_own (.nested t) = n.merge t := by
  cases n
  simp [NestedException.add_own]

lemma add_sub_def (n : NestedException) (k : String) (e : Exc) :
    n.add_sub k e = .mk n.own_errors (setdefaultAdd n.sub_errors k e) := by
  cases n
  simp [NestedException.add_sub]

lemma merge_def (n t : NestedException) :
    n.merge t = mergeSubs (mergeOwn n t.own_errors) t.sub_errors := by
  cases t
  simp [NestedException.merge]

@[simp] lemma mergeOwn_nil (n : NestedException) : mergeOwn n [] = n := by
  simp [mergeOwn]

lemma mergeOwn_cons (n : NestedException) (e : Exc) (es : List Exc) :
    mergeOwn n (e :: es) = mergeOwn (n.add_own e) es := by
  simp [mergeOwn]

@[simp] lemma mergeSubs_nil (n : NestedException) : mergeSubs n [] = n := by
  simp [mergeSubs]

lemma mergeSubs_cons (n : NestedException) (k : String) (s : NestedException)
    (rest : List (String × NestedException)) :
    mergeSubs n ((k, s) :: rest) = mergeSubs (n.add_sub k (.nested s)) rest := by
  simp [mergeSubs]

lemma setdefaultAdd_nil (k : String) (e : Exc) :
    setdefaultAdd [] k e = [(k, NestedException.add_own (.mk [] []) e)] := by
  simp [setdefaultAdd]

lemma setdefaultAdd_cons (p : String × NestedException)
    (rest : List (String × NestedException)) (k : String) (e : Exc) :
    setdefaultAdd (p :: rest) k e =
      if p.1 = k then (p.1, p.2.add_own e) :: rest
      else p :: setdefaultAdd rest k e := by
  cases p
  simp [setdefaultAdd]

/-- `add_sub` never changes `own_errors`. -/
lemma add_sub_own (n : NestedException) (k : String) (e : Exc) :
    (n.add_sub k e).own_errors = n.own_errors := by
  rw [add_sub_def]
  simp

/-- `mergeSubs` never changes `own_errors`. -/
lemma mergeSubs_own (l : List (String × NestedException)) (n : NestedException) :
    (mergeSubs n l).own_errors = n.own_errors := by
  induction l generalizing n with
  | nil => simp
  | cons p rest ih =>
    cases p
    rw [mergeSubs_cons, ih, add_sub_own]

/-- The `sub_errors` of `mergeSubs` depend only on the starting `sub_errors`. -/
lemma mergeSubs_subs (l : List (String × NestedException)) (n : NestedException) :
    (mergeSubs n l).sub_errors = subsFold n.sub_errors l := by
  induction l generalizing n with
  | nil => simp [subsFold]
  | cons p rest ih =>
    cases p
    rw [mergeSubs_cons, ih, add_sub_def]
    simp [subsFold]

/-- Replaying a list of plain exceptions through `add_own` appends them to
`own_errors` and leaves `sub_errors` alone. -/
lemma mergeOwn_plain (l : List Exc) (n : NestedException)
    (h : ∀ e ∈ l, e.isPlain = true) :
    mergeOwn n l = .mk (n.own_errors ++ l) n.sub_errors := by
  induction l generalizing n with
  | nil =>
    cases n
    simp
  | cons e es ih =>
    match e with
    | .plain m =>
      rw [mergeOwn_cons, ih _ (fun x hx => h x (List.mem_cons_of_mem _ hx)),
        add_own_plain]
      simp
    | .nested t =>
      have := h (.nested t) (List.mem_cons_self _ _)
      simp [Exc.isPlain] at this

/-- `merge`, in terms of the two components. -/
lemma merge_parts (n t : NestedException) (h : ∀ e ∈ t.own_errors, e.isPlain = true) :
    n.merge t =
      .mk (n.own_errors ++ t.own_errors) (subsFold n.sub_errors t.sub_errors) := by
  rw [merge_def]
  apply NestedException.eq_of_parts
  · rw [mergeSubs_own, mergeOwn_plain _ _ h]
    simp
  · rw [mergeSubs_subs, mergeOwn_plain _ _ h]
    simp

lemma strList_eq_map (l : List Exc) : strList l = l.map Exc.str := by
  induction l with
  | nil => simp [strList]
  | cons e es ih => simp [strList, ih]

lemma strSubs_eq_map (l : List (String × NestedException)) :
    strSubs l = l.map (fun p => (p.1, p.2.str_)) := by
  induction l with
  | nil => simp [strSubs]
  | cons p rest ih =>
    cases p
    simp [strSubs, ih]

lemma lookupSub_eq_none_of_not_mem (k : String)
    (l : List (String × NestedException)) (h : k ∉ l.map Prod.fst) :
    lookupSub k l = none := by
  induction l with
  | nil => simp [lookupSub]
  | cons p rest ih =>
    simp only [List.map_cons, List.mem_cons] at h
    push_neg at h
    simp [lookupSub, Ne.symm h.1, ih h.2]

lemma lookupSub_setdefaultAdd_same (k : String) (e : Exc)
    (l : List (String × NestedException)) :
    lookupSub k (setdefaultAdd l k e) =
      some (((lookupSub k l).getD .empty).add_own e) := by
  induction l with
  | nil => simp [setdefaultAdd_nil, lookupSub, NestedException.empty]
  | cons p rest ih =>
    rw [setdefaultAdd_cons]
    by_cases hk : p.1 = k
    · rw [if_pos hk]
      rw [lookupSub, if_pos hk, lookupSub, if_pos hk]
      simp
    · rw [if_neg hk]
      rw [lookupSub, if_neg hk, lookupSub, if_neg hk]
      exact ih

lemma lookupSub_setdefaultAdd_other (k k2 : String) (e : Exc)
    (l : List (String × NestedException)) (hne : k ≠ k2) :
    lookupSub k (setdefaultAdd l k2 e) = lookupSub k l := by
  induction l with
  | nil =>
    simp [setdefaultAdd_nil, lookupSub, Ne.symm hne]
  | cons p rest ih =>
    rw [setdefaultAdd_cons]
    by_cases hk : p.1 = k2
    · rw [if_pos hk]
      simp [lookupSub, hk, Ne.symm hne]
    · rw [if_neg hk]
      by_cases hpk : p.1 = k
      · simp [lookupSub, hpk]
      · simp [lookupSub, hpk, ih]

/-- Looking up a key after `merge`'s second loop: a key present in the
merged-in list has its subtree combined (via `add_own`) with the existing
child, or with a fresh empty child; other keys are untouched. -/
lemma lookupSub_subsFold (l acc : List (String × NestedException))
    (h : (l.map Prod.fst).Nodup) (k : String) :
    lookupSub k (subsFold acc l) =
      match lookupSub k l with
      | none => lookupSub k acc
      | some s => some (((lookupSub k acc).getD .empty).add_own (.nested s)) := by
  induction l generalizing acc with
  | nil => simp [subsFold, lookupSub]
  | cons p rest ih =>
    obtain ⟨k2, s2⟩ := p
    simp only [List.map_cons, List.nodup_cons] at h
    rw [subsFold]
    rw [ih _ h.2]
    by_cases hk : k = k2
    · subst hk
      have hrest : lookupSub k rest = none :=
        lookupSub_eq_none_of_not_mem _ _ h.1
      rw [hrest, lookupSub, if_pos rfl]
      simp only []
      rw [lookupSub_setdefaultAdd_same]
    · rw [lookupSub, if_neg (fun hc => hk hc.symm)]
      rw [lookupSub_setdefaultAdd_other _ _ _ _ hk]

/-- Invariant of C9: no element of `own_errors`, at any node of the tree,
is itself a `NestedException`. -/
inductive PlainOwn : NestedException → Prop where
  | intro (o : List Exc) (s : List (String × NestedException)) :
      (∀ e ∈ o, e.isPlain = true) →
      (∀ p ∈ s, PlainOwn p.2) →
      PlainOwn (.mk o s)

lemma PlainOwn.own_plain {n : NestedException} (h : PlainOwn n) :
    ∀ e ∈ n.own_errors, e.isPlain = true := by
  cases h with
  | intro o s ho hs => simpa using ho

lemma PlainOwn.subs_plain {n : NestedException} (h : PlainOwn n) :
    ∀ p ∈ n.sub_errors, PlainOwn p.2 := by
  cases h with
  | intro o s ho hs => simpa using hs

/-- Invariant used for the merge-associativity development: the keys of
every `sub_errors` list in the tree are distinct (true of any tree whose
`sub_errors` model an `OrderedDict`). -/
inductive KeysNodup : NestedException → Prop where
  | intro (o : List Exc) (s : List (String × NestedException)) :
      (s.map Prod.fst).Nodup →
      (∀ p ∈ s, KeysNodup p.2) →
      KeysNodup (.mk o s)

lemma KeysNodup.keys {n : NestedException} (h : KeysNodup n) :
    (n.sub_errors.map Prod.fst).Nodup := by
  cases h with
  | intro o s hk hs => simpa using hk

lemma KeysNodup.subs_nodup {n : NestedException} (h : KeysNodup n) :
    ∀ p ∈ n.sub_errors, KeysNodup p.2 := by
  cases h with
  | intro o s hk hs => simpa using hs

/-- A property preserved by each `add_own` step is preserved by `merge`'s
first loop. -/
lemma mergeOwn_preserves {P : NestedException → Prop} (l : List Exc)
    (hstep : ∀ e ∈ l, ∀ m, P m → P (m.add_own e)) :
    ∀ n, P n → P (mergeOwn n l) := by
  induction l with
  | nil =>
    intro n h
    simpa using h
  | cons e es ih =>
    intro n h
    rw [mergeOwn_cons]
    exact ih (fun f hf m hm => hstep f (List.mem_cons_of_mem _ hf) m hm) _
      (hstep e (List.mem_cons_self _ _) n h)

/-- A property preserved by each `add_sub` step is preserved by `merge`'s
second loop. -/
lemma mergeSubs_preserves {P : NestedException → Prop}
    (l : List (String × NestedException))
    (hstep : ∀ p ∈ l, ∀ m, P m → P (m.add_sub p.1 (.nested p.2))) :
    ∀ n, P n → P (mergeSubs n l) := by
  induction l with
  | nil =>
    intro n h
    simpa using h
  | cons p rest ih =>
    intro n h
    obtain ⟨k, s⟩ := p
    rw [mergeSubs_cons]
    exact ih (fun q hq m hm => hstep q (List.mem_cons_of_mem _ hq) m hm) _
      (hstep (k, s) (List.mem_cons_self _ _) n h)

/-- Every entry of `setdefaultAdd l k e` is an original entry, an original
entry whose value received `add_own e`, or the fresh `(k, add_own empty e)`
entry. -/
lemma setdefaultAdd_mem (l : List (String × NestedException)) (k : String) (e : Exc) :
    ∀ p ∈ setdefaultAdd l k e,
      p ∈ l ∨ (∃ q ∈ l, p = (q.1, q.2.add_own e)) ∨
        p = (k, NestedException.add_own (.mk [] []) e) := by
  induction l with
  | nil =>
    intro p hp
    rw [setdefaultAdd_nil] at hp
    simp at hp
    right; right
    exact hp
  | cons q rest ih =>
    intro p hp
    rw [setdefaultAdd_cons] at hp
    by_cases hk : q.1 = k
    · rw [if_pos hk] at hp
      rcases List.mem_cons.mp hp with h1 | h1
      · right; left
        exact ⟨q, List.mem_cons_self _ _, h1⟩
      · left
        exact List.mem_cons_of_mem _ h1
    · rw [if_neg hk] at hp
      rcases List.mem_cons.mp hp with h1 | h1
      · left
        rw [h1]
        exact List.mem_cons_self _ _
      · rcases ih p h1 with h2 | ⟨r, hr, h2⟩ | h2
        · exact Or.inl (List.mem_cons_of_mem _ h2)
        · exact Or.inr (Or.inl ⟨r, List.mem_cons_of_mem _ hr, h2⟩)
        · exact Or.inr (Or.inr h2)

/-- The keys of `setdefaultAdd`: unchanged when the key was present,
otherwise the key is appended. -/
lemma setdefaultAdd_keys (l : List (String × NestedException)) (k : String) (e : Exc) :
    (setdefaultAdd l k e).map Prod.fst =
      if k ∈ l.map Prod.fst then l.map Prod.fst else l.map Prod.fst ++ [k] := by
  induction l with
  | nil => simp [setdefaultAdd_nil]
  | cons q rest ih =>
    rw [setdefaultAdd_cons]
    by_cases hk : q.1 = k
    · rw [if_pos hk]
      simp [hk]
    · rw [if_neg hk]
      by_cases hmem : k ∈ rest.map Prod.fst
      · simp [hmem, ih, Ne.symm hk]
      · simp [hmem, ih, Ne.symm hk]

/-- Preservation of `PlainOwn` by all three mutating operations, proven by
strong induction on the size of the merged-in argument. -/
lemma plainOwn_master : ∀ N : Nat,
    (∀ e : Exc, sizeOf e ≤ N → ∀ n, PlainOwn n → PlainOwn (n.add_own e)) ∧
    (∀ (e : Exc) (k : String), sizeOf e ≤ N →
      ∀ n, PlainOwn n → PlainOwn (n.add_sub k e)) ∧
    (∀ t : NestedException, sizeOf t ≤ N → ∀ n, PlainOwn n → PlainOwn (n.merge t)) := by
  intro N
  induction N using Nat.strong_induction_on with
  | _ N ih =>
    have Hao : ∀ e : Exc, sizeOf e ≤ N → ∀ n, PlainOwn n → PlainOwn (n.add_own e) := by
      intro e he n hn
      match e with
      | .plain m =>
        rw [add_own_plain]
        cases hn with
        | intro o s ho hs =>
          refine PlainOwn.intro _ _ ?_ (by simpa using hs)
          intro f hf
          simp only [own_errors_mk] at hf
          rcases List.mem_append.mp hf with h1 | h1
          · exact ho f h1
          · simp at h1
            rw [h1]
            rfl
      | .nested t =>
        rw [add_own_nested]
        have h1 : sizeOf (Exc.nested t) = 1 + sizeOf t := by simp
        exact (ih (N - 1) (by omega)).2.2 t (by omega) n hn
    have Hsub : ∀ (e : Exc) (k : String), sizeOf e ≤ N →
        ∀ n, PlainOwn n → PlainOwn (n.add_sub k e) := by
      intro e k he n hn
      rw [add_sub_def]
      cases hn with
      | intro o s ho hs =>
        refine PlainOwn.intro _ _ (by simpa using ho) ?_
        intro p hp
        simp only [sub_errors_mk] at hp
        rcases setdefaultAdd_mem _ _ _ p hp with h1 | ⟨q, hq, h1⟩ | h1
        · exact hs p h1
        · rw [h1]
          exact Hao e he _ (hs q hq)
        · rw [h1]
          exact Hao e he _ (PlainOwn.intro [] [] (by simp) (by simp))
    have Hme : ∀ t : NestedException, sizeOf t ≤ N →
        ∀ n, PlainOwn n → PlainOwn (n.merge t) := by
      intro t ht n hn
      cases t with
      | mk o s =>
        have hsz : sizeOf (NestedException.mk o s) = 1 + sizeOf o + sizeOf s := by
          simp
        rw [merge_def]
        simp only [own_errors_mk, sub_errors_mk]
        have h1 : PlainOwn (mergeOwn n o) := by
          refine mergeOwn_preserves o ?_ n hn
          intro f hf m hm
          have : sizeOf f < sizeOf o := List.sizeOf_lt_of_mem hf
          exact Hao f (by omega) m hm
        refine mergeSubs_preserves s ?_ _ h1
        intro p hp m hm
        have h2 : sizeOf p < sizeOf s := List.sizeOf_lt_of_mem hp
        have h3 : sizeOf p = 1 + sizeOf p.1 + sizeOf p.2 := by
          obtain ⟨k2, s2⟩ := p
          simp
        have h4 : sizeOf (Exc.nested p.2) = 1 + sizeOf p.2 := by simp
        exact Hsub (.nested p.2) p.1 (by omega) m hm
    exact ⟨Hao, Hsub, Hme⟩

/-- Preservation of `KeysNodup` by all three mutating operations. -/
lemma keysNodup_master : ∀ N : Nat,
    (∀ e : Exc, sizeOf e ≤ N → ∀ n, KeysNodup n → KeysNodup (n.add_own e)) ∧
    (∀ (e : Exc) (k : String), sizeOf e ≤ N →
      ∀ n, KeysNodup n → KeysNodup (n.add_sub k e)) ∧
    (∀ t : NestedException, sizeOf t ≤ N →
      ∀ n, KeysNodup n → KeysNodup (n.merge t)) := by
  intro N
  induction N using Nat.strong_induction_on with
  | _ N ih =>
    have Hao : ∀ e : Exc, sizeOf e ≤ N → ∀ n, KeysNodup n → KeysNodup (n.add_own e) := by
      intro e he n hn
      match e with
      | .plain m =>
        rw [add_own_plain]
        cases hn with
        | intro o s hk hs =>
          exact KeysNodup.intro _ _ (by simpa using hk) (by simpa using hs)
      | .nested t =>
        rw [add_own_nested]
        have h1 : sizeOf (Exc.nested t) = 1 + sizeOf t := by simp
        exact (ih (N - 1) (by omega)).2.2 t (by omega) n hn
    have Hsub : ∀ (e : Exc) (k : String), sizeOf e ≤ N →
        ∀ n, KeysNodup n → KeysNodup (n.add_sub k e) := by
      intro e k he n hn
      rw [add_sub_def]
      cases hn with
      | intro o s hk hs =>
        refine KeysNodup.intro _ _ ?_ ?_
        · simp only [sub_errors_mk]
          rw [setdefaultAdd_keys]
          by_cases hmem : k ∈ s.map Prod.fst
          · rw [if_pos hmem]
            exact hk
          · rw [if_neg hmem]
            rw [List.nodup_append]
            refine ⟨hk, List.nodup_singleton k, ?_⟩
            intro a ha hb
            simp at hb
            rw [hb] at ha
            exact hmem ha
        · intro p hp
          simp only [sub_errors_mk] at hp
          rcases setdefaultAdd_mem _ _ _ p hp with h1 | ⟨q, hq, h1⟩ | h1
          · exact hs p h1
          · rw [h1]
            exact Hao e he _ (hs q hq)
          · rw [h1]
            exact Hao e he _ (KeysNodup.intro [] [] (by simp) (by simp))
    have Hme : ∀ t : NestedException, sizeOf t ≤ N →
        ∀ n, KeysNodup n → KeysNodup (n.merge t) := by
      intro t ht n hn
      cases t with
      | mk o s =>
        have hsz : sizeOf (NestedException.mk o s) = 1 + sizeOf o + sizeOf s := by
          simp
        rw [merge_def]
        simp only [own_errors_mk, sub_errors_mk]
        have h1 : KeysNodup (mergeOwn n o) := by
          refine mergeOwn_preserves o ?_ n hn
          intro f hf m hm
          have : sizeOf f < sizeOf o := List.sizeOf_lt_of_mem hf
          exact Hao f (by omega) m hm
        refine mergeSubs_preserves s ?_ _ h1
        intro p hp m hm
        have h2 : sizeOf p < sizeOf s := List.sizeOf_lt_of_mem hp
        have h3 : sizeOf p = 1 + sizeOf p.1 + sizeOf p.2 := by
          obtain ⟨k2, s2⟩ := p
          simp
        have h4 : sizeOf (Exc.nested p.2) = 1 + sizeOf p.2 := by simp
        exact Hsub (.nested p.2) p.1 (by omega) m hm
    exact ⟨Hao, Hsub, Hme⟩

/-- Well-formedness of a tree as built by the module's API: plain own
errors and distinct keys, recursively. -/
def Wf (n : NestedException) : Prop := PlainOwn n ∧ KeysNodup n

/-- Well-formedness of an exception value handed to `add_own`/`add_sub`. -/
def ExcWf : Exc → Prop
  | .plain _ => True
  | .nested t => Wf t

lemma Wf.add_own {n : NestedException} (h : Wf n) (e : Exc) : Wf (n.add_own e) :=
  ⟨(plainOwn_master (sizeOf e)).1 e le_rfl n h.1,
   (keysNodup_master (sizeOf e)).1 e le_rfl n h.2⟩

lemma Wf.add_sub {n : NestedException} (h : Wf n) (k : String) (e : Exc) :
    Wf (n.add_sub k e) :=
  ⟨(plainOwn_master (sizeOf e)).2.1 e k le_rfl n h.1,
   (keysNodup_master (sizeOf e)).2.1 e k le_rfl n h.2⟩

lemma Wf.merge {n : NestedException} (h : Wf n) (t : NestedException) :
    Wf (n.merge t) :=
  ⟨(plainOwn_master (sizeOf t)).2.2 t le_rfl n h.1,
   (keysNodup_master (sizeOf t)).2.2 t le_rfl n h.2⟩

lemma Wf.subs_wf {n : NestedException} (h : Wf n) :
    ∀ p ∈ n.sub_errors, Wf p.2 :=
  fun p hp => ⟨h.1.subs_plain p hp, h.2.subs_nodup p hp⟩

/-- When the key is absent, `setdefaultAdd` appends a fresh entry. -/
lemma setdefaultAdd_not_mem (l : List (String × NestedException)) (k : String)
    (e : Exc) (h : k ∉ l.map Prod.fst) :
    setdefaultAdd l k e = l ++ [(k, NestedException.add_own (.mk [] []) e)] := by
  induction l with
  | nil => simp [setdefaultAdd_nil]
  | cons p rest ih =>
    simp only [List.map_cons, List.mem_cons] at h
    push_neg at h
    rw [setdefaultAdd_cons, if_neg (Ne.symm h.1), ih h.2]
    simp

/-- Folding a list of entries with fresh, distinct keys whose values are
fixed points of merging-into-empty just appends the list. -/
lemma subsFold_append_disjoint (l acc : List (String × NestedException))
    (hd : ∀ k ∈ l.map Prod.fst, k ∉ acc.map Prod.fst)
    (hnd : (l.map Prod.fst).Nodup)
    (hfix : ∀ p ∈ l, NestedException.add_own (.mk [] []) (.nested p.2) = p.2) :
    subsFold acc l = acc ++ l := by
  induction l generalizing acc with
  | nil => simp [subsFold]
  | cons p rest ih =>
    obtain ⟨k2, s2⟩ := p
    rw [subsFold]
    rw [setdefaultAdd_not_mem _ _ _ (hd k2 (by simp))]
    rw [hfix (k2, s2) (List.mem_cons_self _ _)]
    simp only [List.map_cons, List.nodup_cons] at hnd
    rw [ih (acc ++ [(k2, s2)])]
    · simp
    · intro k hk
      simp only [List.map_append, List.mem_append]
      push_neg
      refine ⟨hd k (by simp [hk]), ?_⟩
      simp only [List.map_cons, List.map_nil, List.mem_singleton]
      intro hc
      exact hnd.1 (hc ▸ hk)
    · exact hnd.2
    · intro q hq
      exact hfix q (List.mem_cons_of_mem _ hq)

/-- Merging a well-formed tree into a fresh empty tree reproduces it. -/
lemma merge_empty_aux : ∀ N : Nat, ∀ t : NestedException, sizeOf t ≤ N →
    Wf t → NestedException.merge (.mk [] []) t = t := by
  intro N
  induction N using Nat.strong_induction_on with
  | _ N ih =>
    intro t ht hw
    cases t with
    | mk o s =>
      have hsz : sizeOf (NestedException.mk o s) = 1 + sizeOf o + sizeOf s := by
        simp
      rw [merge_parts _ _ hw.1.own_plain]
      simp only [own_errors_mk, sub_errors_mk, List.nil_append]
      have hsubs : subsFold ([] : List (String × NestedException)) s = s := by
        rw [subsFold_append_disjoint s [] (by simp) hw.2.keys ?_]
        · simp
        · intro p hp
          rw [add_own_nested]
          have h2 : sizeOf p < sizeOf s := List.sizeOf_lt_of_mem hp
          have h3 : sizeOf p = 1 + sizeOf p.1 + sizeOf p.2 := by
            obtain ⟨k2, s2⟩ := p
            simp
          exact ih (N - 1) (by omega) p.2 (by omega) (hw.subs_wf p hp)
      rw [hsubs]

lemma merge_empty (t : NestedException) (hw : Wf t) :
    NestedException.merge (.mk [] []) t = t :=
  merge_empty_aux (sizeOf t) t le_rfl hw

/-- Adding the tree `add_own empty e` is the same as adding `e` itself. -/
lemma add_own_emptyAdd (e : Exc) (he : ExcWf e) (w : NestedException) :
    w.add_own (.nested (NestedException.add_own (.mk [] []) e)) = w.add_own e := by
  match e with
  | .plain m =>
    rw [add_own_plain]
    simp only [own_errors_mk, sub_errors_mk, List.nil_append]
    rw [add_own_nested, merge_def]
    simp only [own_errors_mk, sub_errors_mk]
    rw [mergeOwn_cons, mergeOwn_nil, mergeSubs_nil]
  | .nested u =>
    have h1 : (NestedException.mk [] []).add_own (.nested u) = u := by
      rw [add_own_nested]
      exact merge_empty u he
    rw [h1]

/-- `setdefaultAdd` only looks at the effect of `add_own` on values. -/
lemma setdefaultAdd_congr (S : List (String × NestedException)) (k : String)
    (e1 e2 : Exc)
    (h : ∀ w : NestedException, w.add_own e1 = w.add_own e2) :
    setdefaultAdd S k e1 = setdefaultAdd S k e2 := by
  induction S with
  | nil => simp [setdefaultAdd_nil, h]
  | cons p rest ih =>
    rw [setdefaultAdd_cons, setdefaultAdd_cons]
    by_cases hk : p.1 = k
    · rw [if_pos hk, if_pos hk, h]
    · rw [if_neg hk, if_neg hk, ih]

/-- Two consecutive `setdefaultAdd`s at the same key collapse to one when
the value-level updates do. -/
lemma setdefaultAdd_twice (S : List (String × NestedException)) (k : String)
    (a b c : Exc)
    (h : ∀ w : NestedException, (w.add_own a).add_own b = w.add_own c) :
    setdefaultAdd (setdefaultAdd S k a) k b = setdefaultAdd S k c := by
  induction S with
  | nil =>
    rw [setdefaultAdd_nil, setdefaultAdd_cons]
    simp [h, setdefaultAdd_nil]
  | cons p rest ih =>
    rw [setdefaultAdd_cons]
    by_cases hk : p.1 = k
    · rw [if_pos hk, setdefaultAdd_cons, if_pos hk, setdefaultAdd_cons, if_pos hk, h]
    · rw [if_neg hk, setdefaultAdd_cons, if_neg hk, setdefaultAdd_cons, if_neg hk, ih]

/-- `setdefaultAdd`s at distinct keys commute when the first key is already
present (so no fresh entry ordering is at stake). -/
lemma setdefaultAdd_comm (S : List (String × NestedException)) (k k2 : String)
    (e b : Exc) (hne : k ≠ k2) (hmem : k ∈ S.map Prod.fst) :
    setdefaultAdd (setdefaultAdd S k2 b) k e =
      setdefaultAdd (setdefaultAdd S k e) k2 b := by
  induction S with
  | nil => simp at hmem
  | cons p rest ih =>
    by_cases h1 : p.1 = k
    · rw [setdefaultAdd_cons, if_neg (h1 ▸ hne), setdefaultAdd_cons, if_pos h1,
        setdefaultAdd_cons, if_pos h1, setdefaultAdd_cons, if_neg (h1 ▸ hne)]
    · by_cases h2 : p.1 = k2
      · rw [setdefaultAdd_cons, if_pos h2, setdefaultAdd_cons, if_neg h1,
          setdefaultAdd_cons, if_neg h1, setdefaultAdd_cons, if_pos h2]
      · have hmem2 : k ∈ rest.map Prod.fst := by
          simp only [List.map_cons, List.mem_cons] at hmem
          rcases hmem with hc | hc
          · exact absurd hc.symm h1
          · exact hc
        rw [setdefaultAdd_cons, if_neg h2, setdefaultAdd_cons, if_neg h1,
          setdefaultAdd_cons, if_neg h1, setdefaultAdd_cons, if_neg h2,
          ih hmem2]

/-- The updated key is present afterwards. -/
lemma mem_keys_setdefaultAdd_self (S : List (String × NestedException))
    (k : String) (e : Exc) : k ∈ (setdefaultAdd S k e).map Prod.fst := by
  rw [setdefaultAdd_keys]
  by_cases hmem : k ∈ S.map Prod.fst
  · rw [if_pos hmem]
    exact hmem
  · rw [if_neg hmem]
    simp

/-- Keys present before `setdefaultAdd` are present after it. -/
lemma mem_keys_setdefaultAdd_of_mem (S : List (String × NestedException))
    (k k2 : String) (e : Exc) (h : k2 ∈ S.map Prod.fst) :
    k2 ∈ (setdefaultAdd S k e).map Prod.fst := by
  rw [setdefaultAdd_keys]
  by_cases hmem : k ∈ S.map Prod.fst
  · rw [if_pos hmem]
    exact h
  · rw [if_neg hmem]
    simp [h]

/-- A `setdefaultAdd` at a key foreign to the folded list commutes with
the whole fold, provided the key is already present in the accumulator. -/
lemma setdefaultAdd_subsFold_comm (B : List (String × NestedException))
    (k : String) (e : Exc) (hk : k ∉ B.map Prod.fst) :
    ∀ S, k ∈ S.map Prod.fst →
      setdefaultAdd (subsFold S B) k e = subsFold (setdefaultAdd S k e) B := by
  induction B with
  | nil =>
    intro S _
    simp [subsFold]
  | cons p B2 ih =>
    intro S hmem
    obtain ⟨k2, v2⟩ := p
    simp only [List.map_cons, List.mem_cons] at hk
    push_neg at hk
    rw [subsFold, subsFold]
    rw [ih hk.2 _ (mem_keys_setdefaultAdd_of_mem _ _ _ _ hmem)]
    rw [setdefaultAdd_comm _ _ _ _ _ hk.1 hmem]

/-- The commutation facts behind associativity of `merge`, by strong
induction on the size of the merged-in argument: `add_own`, `add_sub`,
`setdefaultAdd` after a fold, and `merge` applied to `x.merge v` all factor
through `v` first. -/
lemma merge_assoc_master : ∀ N : Nat,
    (∀ e : Exc, sizeOf e ≤ N → ExcWf e → ∀ x v : NestedException, Wf v →
      (x.merge v).add_own e = x.merge (v.add_own e)) ∧
    (∀ e : Exc, sizeOf e ≤ N → ExcWf e →
      ∀ B : List (String × NestedException), (B.map Prod.fst).Nodup →
        (∀ p ∈ B, Wf p.2) →
        ∀ (S : List (String × NestedException)) (k : String),
          setdefaultAdd (subsFold S B) k e = subsFold S (setdefaultAdd B k e)) ∧
    (∀ e : Exc, sizeOf e ≤ N → ExcWf e → ∀ (x v : NestedException) (k : String),
      Wf v → (x.merge v).add_sub k e = x.merge (v.add_sub k e)) ∧
    (∀ u : NestedException, sizeOf u ≤ N → Wf u → ∀ x v : NestedException, Wf v →
      (x.merge v).merge u = x.merge (v.merge u)) := by
  intro N
  induction N using Nat.strong_induction_on with
  | _ N ih =>
    have HA : ∀ e : Exc, sizeOf e ≤ N → ExcWf e → ∀ x v : NestedException, Wf v →
        (x.merge v).add_own e = x.merge (v.add_own e) := by
      intro e he hwe x v hv
      match e with
      | .plain m =>
        have hvp := hv.1.own_plain
        have hvp2 : ∀ f ∈ v.own_errors ++ [Exc.plain m], f.isPlain = true := by
          intro f hf
          rcases List.mem_append.mp hf with h1 | h1
          · exact hvp f h1
          · simp at h1
            rw [h1]
            rfl
        rw [merge_parts x v hvp]
        rw [add_own_plain (NestedException.mk (x.own_errors ++ v.own_errors)
          (subsFold x.sub_errors v.sub_errors)) m]
        rw [add_own_plain v m]
        rw [merge_parts x (NestedException.mk (v.own_errors ++ [Exc.plain m])
          v.sub_errors) (by simpa using hvp2)]
        simp [List.append_assoc]
      | .nested u =>
        have hwu : Wf u := hwe
        rw [add_own_nested, add_own_nested]
        have hsz : sizeOf (Exc.nested u) = 1 + sizeOf u := by simp
        exact (ih (N - 1) (by omega)).2.2.2 u (by omega) hwu x v hv
    have HSwap : ∀ e : Exc, sizeOf e ≤ N → ExcWf e →
        ∀ B : List (String × NestedException), (B.map Prod.fst).Nodup →
          (∀ p ∈ B, Wf p.2) →
          ∀ (S : List (String × NestedException)) (k : String),
            setdefaultAdd (subsFold S B) k e = subsFold S (setdefaultAdd B k e) := by
      intro e he hwe B
      induction B with
      | nil =>
        intro _ _ S k
        rw [setdefaultAdd_nil]
        rw [show subsFold S [(k, NestedException.add_own (.mk [] []) e)] =
          setdefaultAdd S k (.nested (NestedException.add_own (.mk [] []) e)) from by
            rw [subsFold, subsFold]]
        rw [show subsFold S ([] : List (String × NestedException)) = S from by
          rw [subsFold]]
        exact (setdefaultAdd_congr S k _ e (fun w => add_own_emptyAdd e hwe w)).symm
      | cons p B2 ih2 =>
        intro hnd hwf S k
        obtain ⟨k2, v2⟩ := p
        simp only [List.map_cons, List.nodup_cons] at hnd
        rw [subsFold]
        by_cases hkk : k2 = k
        · subst hkk
          rw [setdefaultAdd_cons, if_pos rfl]
          simp only []
          rw [subsFold]
          rw [setdefaultAdd_subsFold_comm B2 k2 e hnd.1 _
            (mem_keys_setdefaultAdd_self S k2 _)]
          congr 1
          refine setdefaultAdd_twice S k2 (.nested v2) e (.nested (v2.add_own e)) ?_
          intro w
          rw [add_own_nested, add_own_nested]
          exact HA e he hwe w v2 (hwf (k2, v2) (List.mem_cons_self _ _))
        · rw [setdefaultAdd_cons, if_neg hkk, subsFold]
          exact ih2 hnd.2 (fun q hq => hwf q (List.mem_cons_of_mem _ hq))
            (setdefaultAdd S k2 (.nested v2)) k
    have HB : ∀ e : Exc, sizeOf e ≤ N → ExcWf e →
        ∀ (x v : NestedException) (k : String), Wf v →
          (x.merge v).add_sub k e = x.merge (v.add_sub k e) := by
      intro e he hwe x v k hv
      rw [merge_parts x v hv.1.own_plain, add_sub_def, add_sub_def]
      rw [merge_parts x (.mk v.own_errors (setdefaultAdd v.sub_errors k e))
        (by simpa using hv.1.own_plain)]
      simp only [own_errors_mk, sub_errors_mk]
      congr 1
      exact HSwap e he hwe v.sub_errors hv.2.keys hv.subs_wf x.sub_errors k
    have HC : ∀ u : NestedException, sizeOf u ≤ N → Wf u →
        ∀ x v : NestedException, Wf v →
          (x.merge v).merge u = x.merge (v.merge u) := by
      intro u hu hwu x v hv
      cases u with
      | mk o s =>
        have hsz : sizeOf (NestedException.mk o s) = 1 + sizeOf o + sizeOf s := by
          simp
        have inner1 : ∀ l : List Exc, (∀ f ∈ l, f.isPlain = true ∧ sizeOf f ≤ N) →
            ∀ w : NestedException, Wf w →
              mergeOwn (x.merge w) l = x.merge (mergeOwn w l) := by
          intro l
          induction l with
          | nil =>
            intro _ w _
            simp
          | cons f fs ihl =>
            intro hl w hw
            rw [mergeOwn_cons, mergeOwn_cons]
            have hf := hl f (List.mem_cons_self _ _)
            have hwf : ExcWf f := by
              match f with
              | .plain m => trivial
              | .nested t =>
                exact absurd hf.1 (by simp [Exc.isPlain])
            rw [HA f hf.2 hwf x w hw]
            exact ihl (fun g hg => hl g (List.mem_cons_of_mem _ hg))
              (w.add_own f) (hw.add_own f)
        have inner2 : ∀ l : List (String × NestedException),
            (∀ p ∈ l, Wf p.2 ∧ 1 + sizeOf p.2 ≤ N) →
            ∀ w : NestedException, Wf w →
              mergeSubs (x.merge w) l = x.merge (mergeSubs w l) := by
          intro l
          induction l with
          | nil =>
            intro _ w _
            simp
          | cons p ps ihl =>
            intro hl w hw
            obtain ⟨k2, s2⟩ := p
            rw [mergeSubs_cons, mergeSubs_cons]
            have hp := hl (k2, s2) (List.mem_cons_self _ _)
            have hp2 : 1 + sizeOf s2 ≤ N := hp.2
            have hsz2 : sizeOf (Exc.nested s2) = 1 + sizeOf s2 := by simp
            rw [HB (.nested s2) (by omega) hp.1 x w k2 hw]
            exact ihl (fun q hq => hl q (List.mem_cons_of_mem _ hq)) _
              (hw.add_sub k2 (.nested s2))
        rw [merge_def (x.merge v) (.mk o s), merge_def v (.mk o s)]
        simp only [own_errors_mk, sub_errors_mk]
        rw [inner1 o ?ho v hv]
        case ho =>
          intro f hf
          have h1 : sizeOf f < sizeOf o := List.sizeOf_lt_of_mem hf
          refine ⟨hwu.1.own_plain f (by simpa using hf), by omega⟩
        rw [inner2 s ?hs (mergeOwn v o) ?hw]
        case hs =>
          intro p hp
          have h1 : sizeOf p < sizeOf s := List.sizeOf_lt_of_mem hp
          have h2 : sizeOf p = 1 + sizeOf p.1 + sizeOf p.2 := by
            obtain ⟨k2, s2⟩ := p
            simp
          refine ⟨hwu.subs_wf p (by simpa using hp), by omega⟩
        case hw =>
          exact mergeOwn_preserves o (fun f _ m hm => hm.add_own f) v hv
    exact ⟨HA, HSwap, HB, HC⟩

mutual

/-- The recursive emptiness test described by the spec: a tree is empty iff
`own` is empty and every child is itself empty under the same test (so a
tree whose only children are themselves empty trees counts as empty). -/
def isEmptyRec : NestedException → Bool
  | .mk o s => o.isEmpty && subsEmptyRec s
termination_by t => sizeOf t
decreasing_by
  all_goals simp_wf
  all_goals omega

/-- All children empty under the recursive test. -/
def subsEmptyRec : List (String × NestedException) → Bool
  | [] => true
  | (_, t) :: rest => isEmptyRec t && subsEmptyRec rest
termination_by l => sizeOf l
decreasing_by
  all_goals simp_wf
  all_goals omega

end

/-- C1 counterexample input: `e = NestedException(); e.add_sub("k", NestedException())`
stores a genuinely empty child under `"k"`. -/
def cexTree : NestedException :=
  NestedException.empty.add_sub "k" (.nested NestedException.empty)

/-- C1, counterexample.  The tree obtained by `add_sub`-ing an empty
`NestedException` under key `"k"` has empty `own_errors` and only
recursively-empty children (`isEmptyRec` is true), yet `__nonzero__` is
true, i.e. the code's emptiness test reports the tree as non-empty: the
code's test does not recurse into children as the claim states. -/
theorem claim_C1_counterexample :
    cexTree = .mk [] [("k", .mk [] [])] ∧
    isEmptyRec cexTree = true ∧
    cexTree.nonzero = true := by
  have h : cexTree = .mk [] [("k", .mk [] [])] := by
    rw [cexTree, NestedException.empty, add_sub_def]
    simp only [own_errors_mk, sub_errors_mk, setdefaultAdd_nil, add_own_nested,
      merge_def, own_errors_mk, sub_errors_mk, mergeOwn_nil, mergeSubs_nil]
  refine ⟨h, ?_, ?_⟩
  · rw [h]
    simp [isEmptyRec, subsEmptyRec, List.isEmpty]
  · rw [h]
    simp [NestedException.nonzero, List.isEmpty]

/-- C1, amended: the truthiness test `__nonzero__` (whose negation is the
emptiness test) is shallow, not recursive — a `NestedException` is falsy
iff `own_errors` is the empty list and the `sub_errors` mapping is empty;
a tree whose only children are themselves empty trees still counts as
non-empty.  `ErrorAggregator.has_errors` is exactly the truthiness of
`root`. -/
theorem claim_C1 :
    (∀ n : NestedException,
      n.nonzero = false ↔ n.own_errors = [] ∧ n.sub_errors = []) ∧
    (∀ a : ErrorAggregator, a.has_errors = a.error.nonzero) := by
  constructor
  · intro n
    cases n with
    | mk o s =>
      simp [NestedException.nonzero, List.isEmpty_iff]
  · intro a
    rfl

/-- C2: `full_summary()` (= `__str__`) returns `"<no message>"` exactly on
the empty tree; otherwise it comma-joins the `str()` of the own failures,
renders each child as `"key: [child.full_summary()]"` iterating the
children sorted by key ascending, comma-joins those, and semicolon-joins
the two parts, dropping whichever is the empty string.  Children are
rendered in ascending key order regardless of insertion order: inserting
`"foo"` then `"bar"` renders the `"bar"` child first. -/
theorem claim_C2 :
    (∀ t : NestedException,
      t.own_errors = [] → t.sub_errors = [] → t.str_ = "<no message>") ∧
    (∀ (o : List Exc) (s : List (String × NestedException)),
      ¬(o = [] ∧ s = []) →
      NestedException.str_ (.mk o s) =
        String.intercalate "; "
          (List.filter (fun x => x ≠ "")
            [String.intercalate ", " (o.map Exc.str),
             String.intercalate ", "
               ((sortPairs (s.map (fun p => (p.1, p.2.str_)))).map
                 (fun p => p.1 ++ ": [" ++ p.2 ++ "]"))])) ∧
    ((NestedException.empty.add_sub "foo" (.plain "F")).add_sub "bar" (.plain "B")).str_
      = "bar: [B], foo: [F]" := by
  refine ⟨?_, ?_, ?_⟩
  · intro t h1 h2
    cases t with
    | mk o s =>
      simp only [own_errors_mk, sub_errors_mk] at h1 h2
      subst h1
      subst h2
      simp [NestedException.str_]
  · intro o s h
    rw [NestedException.str_]
    rw [if_neg (by
      intro hlen
      rcases List.length_eq_zero.mp (by omega : o.length = 0) with ho
      rcases List.length_eq_zero.mp (by omega : s.length = 0) with hs
      exact h ⟨ho, hs⟩)]
    rw [strList_eq_map, strSubs_eq_map]
  · have h1 : NestedException.empty.add_sub "foo" (.plain "F") =
        .mk [] [("foo", .mk [.plain "F"] [])] := by
      rw [NestedException.empty, add_sub_def]
      simp [setdefaultAdd_nil, add_own_plain]
    have h2 : ((NestedException.empty.add_sub "foo" (.plain "F")).add_sub "bar"
        (.plain "B")) =
        .mk [] [("foo", .mk [.plain "F"] []), ("bar", .mk [.plain "B"] [])] := by
      rw [h1, add_sub_def]
      simp only [own_errors_mk, sub_errors_mk]
      rw [setdefaultAdd_cons]
      simp [setdefaultAdd_nil, add_own_plain]
    rw [h2]
    simp [NestedException.str_, strList, strSubs, Exc.str, sortPairs, insertPair]
    decide

/-- C6: `raise_if_any()` raises `root` exactly when `has_errors()` is true
and is a no-op otherwise; in particular a freshly constructed aggregator
raises nothing. -/
theorem claim_C6 :
    (∀ a : ErrorAggregator,
      (a.raise_if_any = some a.error ↔ a.has_errors = true) ∧
      (a.raise_if_any = none ↔ a.has_errors = false)) ∧
    (∀ b : Bool, (ErrorAggregator.init b).has_errors = false ∧
      (ErrorAggregator.init b).raise_if_any = none) := by
  constructor
  · intro a
    cases ha : a.has_errors with
    | false => simp [ErrorAggregator.raise_if_any, ha]
    | true => simp [ErrorAggregator.raise_if_any, ha]
  · intro b
    constructor
    · rfl
    · rfl

/-- C7: `__getitem__` with an integer `k` (here a natural number, the
0-based position) returns the `k`-th element of `own_errors`, raising
`IndexError` when `k` is at or beyond the length; with a string key it
returns the child stored under that key in `sub_errors`, raising
`KeyError` when the key is absent. -/
theorem claim_C7 :
    (∀ (n : NestedException) (k : Nat) (h : k < n.own_errors.length),
      n.getItem (.inl (k : Int)) = .ok (n.own_errors.get ⟨k, h⟩)) ∧
    (∀ (n : NestedException) (k : Nat), n.own_errors.length ≤ k →
      n.getItem (.inl (k : Int)) = .error .indexError) ∧
    (∀ (n : NestedException) (key : String) (s : NestedException),
      lookupSub key n.sub_errors = some s →
      n.getItem (.inr key) = .ok (.nested s)) ∧
    (∀ (n : NestedException) (key : String),
      lookupSub key n.sub_errors = none →
      n.getItem (.inr key) = .error .keyError) := by
  refine ⟨?_, ?_, ?_, ?_⟩
  · intro n k h
    simp only [NestedException.getItem, pyIndex]
    rw [if_neg (by omega : ¬((k : Int) < 0)), if_neg (by omega : ¬((k : Int) < 0))]
    have hk : ((k : Int)).toNat = k := by omega
    rw [hk, List.get?_eq_get h]
  · intro n k h
    simp only [NestedException.getItem, pyIndex]
    rw [if_neg (by omega : ¬((k : Int) < 0)), if_neg (by omega : ¬((k : Int) < 0))]
    have hk : ((k : Int)).toNat = k := by omega
    rw [hk, List.get?_eq_none.mpr h]
  · intro n key s h
    simp only [NestedException.getItem, h]
  · intro n key h
    simp only [NestedException.getItem, h]

/-- C4: with `autoraise` true, `own_error` and `sub_error` (and a recording
made through the `checking` context manager) first record the failure into
`self.error` and then raise the entire accumulated tree — the new
aggregate, not only the newest failure.  Concretely, after recording
`"bad price"` the raised tree renders to `"bad price"`, and a subsequent
`sub_error("foo", ...)` raises a tree rendering to
`"bad price; foo: [foo bad]"`. -/
theorem claim_C4 :
    (∀ (a : ErrorAggregator) (e : Exc), a.autoraise = true →
      a.own_error e = (⟨a.error.add_own e, true⟩, some (a.error.add_own e))) ∧
    (∀ (a : ErrorAggregator) (k : String) (e : Exc), a.autoraise = true →
      a.sub_error k e = (⟨a.error.add_sub k e, true⟩, some (a.error.add_sub k e))) ∧
    (∀ (catch_type : Exc → Bool) (a : ErrorAggregator) (e : Exc),
      a.autoraise = true → catch_type e = true →
      a.checking catch_type (.error e) =
        (⟨a.error.add_own e, true⟩, .raisedTree (a.error.add_own e))) ∧
    (((ErrorAggregator.init true).own_error (.plain "bad price")).2.map
        NestedException.str_ = some "bad price" ∧
      ((((ErrorAggregator.init true).own_error (.plain "bad price")).1.sub_error
          "foo" (.plain "foo bad")).2.map NestedException.str_ =
        some "bad price; foo: [foo bad]")) := by
  refine ⟨?_, ?_, ?_, ?_, ?_⟩
  · intro a e h
    simp [ErrorAggregator.own_error, h]
  · intro a k e h
    simp [ErrorAggregator.sub_error, h]
  · intro catch_type a e ha hc
    simp [ErrorAggregator.checking, ErrorAggregator.own_error, hc, ha]
  · have h1 : (NestedException.mk [] []).add_own (.plain "bad price") =
        .mk [.plain "bad price"] [] := by
      rw [add_own_plain]
      simp
    have step1 : (ErrorAggregator.init true).own_error (.plain "bad price") =
        (⟨.mk [.plain "bad price"] [], true⟩, some (.mk [.plain "bad price"] [])) := by
      simp [ErrorAggregator.own_error, ErrorAggregator.init, h1]
    rw [step1]
    simp only [Option.map_some]
    congr 1
    simp [NestedException.str_, strList, strSubs, Exc.str, sortPairs]
    decide
  · have h1 : (NestedException.mk [] []).add_own (.plain "bad price") =
        .mk [.plain "bad price"] [] := by
      rw [add_own_plain]
      simp
    have step1 : (ErrorAggregator.init true).own_error (.plain "bad price") =
        (⟨.mk [.plain "bad price"] [], true⟩, some (.mk [.plain "bad price"] [])) := by
      simp [ErrorAggregator.own_error, ErrorAggregator.init, h1]
    have h2 : (NestedException.mk [.plain "bad price"] []).add_sub "foo"
        (.plain "foo bad") =
        .mk [.plain "bad price"] [("foo", .mk [.plain "foo bad"] [])] := by
      rw [add_sub_def]
      simp [setdefaultAdd_nil, add_own_plain]
    rw [step1]
    have step2 : (ErrorAggregator.sub_error ⟨.mk [.plain "bad price"] [], true⟩
        "foo" (.plain "foo bad")) =
        (⟨.mk [.plain "bad price"] [("foo", .mk [.plain "foo bad"] [])], true⟩,
          some (.mk [.plain "bad price"] [("foo", .mk [.plain "foo bad"] [])])) := by
      simp [ErrorAggregator.sub_error, h2]
    rw [step2]
    simp only [Option.map_some]
    congr 1
    simp [NestedException.str_, strList, strSubs, Exc.str, sortPairs, insertPair]
    decide

/-- C3: `add_own` of a plain failure appends exactly one element at the end
of `own_errors`; `add_own` of an ErrorTree `t` appends `t`'s own elements in
order to this node's `own_errors` and merges every `(key, subtree)` of `t`
into this node's children by `add_sub` (a key already present has `t`'s
subtree merged into the existing child, an absent key gets a fresh child
holding the merged subtree); merging two trees that each carry one own
failure and one child under `"foo"` yields one tree with both own failures
in order and a `"foo"` child with both `"foo"`-child own failures in
order. -/
theorem claim_C3 :
    (∀ (n : NestedException) (m : String),
      n.add_own (.plain m) = .mk (n.own_errors ++ [.plain m]) n.sub_errors) ∧
    (∀ n t : NestedException, (∀ e ∈ t.own_errors, e.isPlain = true) →
      (n.add_own (.nested t)).own_errors = n.own_errors ++ t.own_errors) ∧
    (∀ (n t : NestedException) (k : String),
      (∀ e ∈ t.own_errors, e.isPlain = true) →
      (t.sub_errors.map Prod.fst).Nodup →
      lookupSub k (n.add_own (.nested t)).sub_errors =
        match lookupSub k t.sub_errors with
        | none => lookupSub k n.sub_errors
        | some s =>
          some (((lookupSub k n.sub_errors).getD .empty).add_own (.nested s))) ∧
    (NestedException.mk [.plain "a1"] [("foo", .mk [.plain "f1"] [])]).add_own
        (.nested (.mk [.plain "a2"] [("foo", .mk [.plain "f2"] [])])) =
      .mk [.plain "a1", .plain "a2"]
        [("foo", .mk [.plain "f1", .plain "f2"] [])] := by
  refine ⟨?_, ?_, ?_, ?_⟩
  · intro n m
    exact add_own_plain n m
  · intro n t h
    rw [add_own_nested, merge_parts _ _ h]
    simp
  · intro n t k h hnd
    rw [add_own_nested, merge_parts _ _ h]
    simp only [sub_errors_mk]
    exact lookupSub_subsFold _ _ hnd k
  · rw [add_own_nested, merge_def]
    simp only [own_errors_mk, sub_errors_mk]
    rw [mergeOwn_cons, mergeOwn_nil, add_own_plain]
    simp only [own_errors_mk, sub_errors_mk, List.cons_append, List.nil_append]
    rw [mergeSubs_cons, mergeSubs_nil, add_sub_def]
    simp only [own_errors_mk, sub_errors_mk]
    rw [setdefaultAdd_cons]
    simp only [if_pos rfl]
    rw [add_own_nested, merge_def]
    simp only [own_errors_mk, sub_errors_mk]
    rw [mergeOwn_cons, mergeOwn_nil, add_own_plain, mergeSubs_nil]
    simp

/-- Witness for `claim_C3` at concrete trees. -/
theorem claim_C3_witness :
    NestedException.add_own (.mk [] [("k", .mk [.plain "z"] [])]) (.plain "m") =
      .mk [.plain "m"] [("k", .mk [.plain "z"] [])] ∧
    (NestedException.add_own .empty
      (.nested (.mk [.plain "z"] []))).own_errors = [.plain "z"] ∧
    lookupSub "foo"
        (NestedException.add_own (.mk [] [("foo", .mk [.plain "n1"] [])])
          (.nested (.mk [] [("foo", .mk [.plain "t1"] [])]))).sub_errors =
      some ((NestedException.mk [.plain "n1"] []).add_own
        (.nested (.mk [.plain "t1"] []))) := by
  refine ⟨?_, ?_, ?_⟩
  · have h := claim_C3.1 (.mk [] [("k", .mk [.plain "z"] [])]) "m"
    simpa using h
  · have h := claim_C3.2.1 .empty (.mk [.plain "z"] []) (by simp [Exc.isPlain])
    simpa [NestedException.empty] using h
  · have h := claim_C3.2.2.1 (.mk [] [("foo", .mk [.plain "n1"] [])])
      (.mk [] [("foo", .mk [.plain "t1"] [])]) "foo" (by simp) (by simp)
    simpa [lookupSub] using h

/-- Structural associativity of `merge` on well-formed trees. -/
lemma merge_assoc (a b c : NestedException) (hb : Wf b) (hc : Wf c) :
    (a.merge b).merge c = a.merge (b.merge c) :=
  (merge_assoc_master (sizeOf c)).2.2.2 c le_rfl hc a b hb

/-- C8: merging `b` into `a` and then `c` into the result renders the same
as merging `c` into `b` first and then merging the combined tree into `a`
(for trees with plain own errors and distinct keys, as the API builds
them); and merging `t` into `n` is exactly the replay of `t`'s own
additions followed by the recursive replay of `t`'s child trees onto `n`.
In fact the two merge orders agree structurally, not just in rendered
output. -/
theorem claim_C8 :
    (∀ a b c : NestedException,
      PlainOwn b → KeysNodup b → PlainOwn c → KeysNodup c →
      ((a.merge b).merge c).str_ = (a.merge (b.merge c)).str_ ∧
      (a.merge b).merge c = a.merge (b.merge c)) ∧
    (∀ n t : NestedException,
      n.add_own (.nested t) = mergeSubs (mergeOwn n t.own_errors) t.sub_errors) := by
  constructor
  · intro a b c hb1 hb2 hc1 hc2
    have h := merge_assoc a b c ⟨hb1, hb2⟩ ⟨hc1, hc2⟩
    exact ⟨by rw [h], h⟩
  · intro n t
    rw [add_own_nested, merge_def]

/-- Witness for `claim_C8` at concrete trees. -/
theorem claim_C8_witness :
    ((NestedException.mk [.plain "a"] []).merge
        (.mk [.plain "b"] [("k", .mk [.plain "kb"] [])])).merge
        (.mk [.plain "c"] [("k", .mk [.plain "kc"] [])]) =
      (NestedException.mk [.plain "a"] []).merge
        ((NestedException.mk [.plain "b"] [("k", .mk [.plain "kb"] [])]).merge
          (.mk [.plain "c"] [("k", .mk [.plain "kc"] [])])) := by
  have hpb : PlainOwn (.mk [.plain "b"] [("k", .mk [.plain "kb"] [])]) := by
    refine PlainOwn.intro _ _ (by simp [Exc.isPlain]) ?_
    intro p hp
    simp only [List.mem_singleton] at hp
    rw [hp]
    exact PlainOwn.intro _ _ (by simp [Exc.isPlain]) (by simp)
  have hpc : PlainOwn (.mk [.plain "c"] [("k", .mk [.plain "kc"] [])]) := by
    refine PlainOwn.intro _ _ (by simp [Exc.isPlain]) ?_
    intro p hp
    simp only [List.mem_singleton] at hp
    rw [hp]
    exact PlainOwn.intro _ _ (by simp [Exc.isPlain]) (by simp)
  have hkb : KeysNodup (.mk [.plain "b"] [("k", .mk [.plain "kb"] [])]) := by
    refine KeysNodup.intro _ _ (by simp) ?_
    intro p hp
    simp only [List.mem_singleton] at hp
    rw [hp]
    exact KeysNodup.intro _ _ (by simp) (by simp)
  have hkc : KeysNodup (.mk [.plain "c"] [("k", .mk [.plain "kc"] [])]) := by
    refine KeysNodup.intro _ _ (by simp) ?_
    intro p hp
    simp only [List.mem_singleton] at hp
    rw [hp]
    exact KeysNodup.intro _ _ (by simp) (by simp)
  exact (claim_C8.1 (.mk [.plain "a"] [])
    (.mk [.plain "b"] [("k", .mk [.plain "kb"] [])])
    (.mk [.plain "c"] [("k", .mk [.plain "kc"] [])]) hpb hkb hpc hkc).2

/-- C9: the invariant "no element of any `own_errors` list is itself a
`NestedException`" is preserved by every public mutating operation —
`add_own`, `add_sub` and `merge` — whatever the argument (a nested tree
handed to `add_own` is always decomposed by merging, never appended), and
it holds of a fresh tree.  `Exc.isPlain` is true exactly of the non-tree
failures. -/
theorem claim_C9 :
    (∀ (n : NestedException) (e : Exc), PlainOwn n → PlainOwn (n.add_own e)) ∧
    (∀ (n : NestedException) (k : String) (e : Exc),
      PlainOwn n → PlainOwn (n.add_sub k e)) ∧
    (∀ n t : NestedException, PlainOwn n → PlainOwn (n.merge t)) ∧
    PlainOwn NestedException.empty ∧
    (∀ n : NestedException, PlainOwn n → ∀ e ∈ n.own_errors, e.isPlain = true) := by
  refine ⟨?_, ?_, ?_, ?_, ?_⟩
  · intro n e h
    exact (plainOwn_master (sizeOf e)).1 e le_rfl n h
  · intro n k e h
    exact (plainOwn_master (sizeOf e)).2.1 e k le_rfl n h
  · intro n t h
    exact (plainOwn_master (sizeOf t)).2.2 t le_rfl n h
  · exact PlainOwn.intro [] [] (by simp) (by simp)
  · intro n h
    exact h.own_plain

/-- Witness for `claim_C9`: even `add_own` of a tree that itself violates
the invariant yields a tree satisfying it. -/
theorem claim_C9_witness :
    PlainOwn (NestedException.add_own (.mk [.plain "a"] [])
      (.nested (.mk [.nested (.mk [] [])] []))) :=
  claim_C9.1 (.mk [.plain "a"] []) (.nested (.mk [.nested (.mk [] [])] []))
    (PlainOwn.intro _ _ (by simp [Exc.isPlain]) (by simp))

/-- C5: under `checking` / `checking_sub`, a body failure whose kind is
caught by `catch_type` is recorded via `own_error` (resp. `sub_error key`)
and the original failure never propagates past the helper; a failure whose
kind is not caught propagates unmodified with nothing recorded; a body
that completes normally leaves the aggregator unchanged. -/
theorem claim_C5 :
    (∀ (catch_type : Exc → Bool) (a : ErrorAggregator) (e : Exc),
      catch_type e = true →
      (a.checking catch_type (.error e)).1 = (a.own_error e).1 ∧
      ∀ x, (a.checking catch_type (.error e)).2 ≠ .propagated x) ∧
    (∀ (catch_type : Exc → Bool) (a : ErrorAggregator) (key : String) (e : Exc),
      catch_type e = true →
      (a.checking_sub catch_type key (.error e)).1 = (a.sub_error key e).1 ∧
      ∀ x, (a.checking_sub catch_type key (.error e)).2 ≠ .propagated x) ∧
    (∀ (catch_type : Exc → Bool) (a : ErrorAggregator) (e : Exc),
      catch_type e = false →
      a.checking catch_type (.error e) = (a, .propagated e)) ∧
    (∀ (catch_type : Exc → Bool) (a : ErrorAggregator) (key : String) (e : Exc),
      catch_type e = false →
      a.checking_sub catch_type key (.error e) = (a, .propagated e)) ∧
    (∀ (catch_type : Exc → Bool) (a : ErrorAggregator),
      a.checking catch_type (.ok ()) = (a, .ok)) ∧
    (∀ (catch_type : Exc → Bool) (a : ErrorAggregator) (key : String),
      a.checking_sub catch_type key (.ok ()) = (a, .ok)) := by
  refine ⟨?_, ?_, ?_, ?_, ?_, ?_⟩
  · intro catch_type a e hc
    cases ha : a.autoraise with
    | false =>
      constructor
      · simp [ErrorAggregator.checking, ErrorAggregator.own_error, hc, ha]
      · intro x
        simp [ErrorAggregator.checking, ErrorAggregator.own_error, hc, ha]
    | true =>
      constructor
      · simp [ErrorAggregator.checking, ErrorAggregator.own_error, hc, ha]
      · intro x
        simp [ErrorAggregator.checking, ErrorAggregator.own_error, hc, ha]
  · intro catch_type a key e hc
    cases ha : a.autoraise with
    | false =>
      constructor
      · simp [ErrorAggregator.checking_sub, ErrorAggregator.sub_error, hc, ha]
      · intro x
        simp [ErrorAggregator.checking_sub, ErrorAggregator.sub_error, hc, ha]
    | true =>
      constructor
      · simp [ErrorAggregator.checking_sub, ErrorAggregator.sub_error, hc, ha]
      · intro x
        simp [ErrorAggregator.checking_sub, ErrorAggregator.sub_error, hc, ha]
  · intro catch_type a e hc
    simp [ErrorAggregator.checking, hc]
  · intro catch_type a key e hc
    simp [ErrorAggregator.checking_sub, hc]
  · intro catch_type a
    simp [ErrorAggregator.checking]
  · intro catch_type a key
    simp [ErrorAggregator.checking_sub]

/-- Witness for `claim_C2` at concrete inputs. -/
theorem claim_C2_witness :
    NestedException.empty.str_ = "<no message>" ∧
    NestedException.str_ (.mk [Exc.plain "x"] []) =
      String.intercalate "; "
        (List.filter (fun x => x ≠ "")
          [String.intercalate ", " ([Exc.plain "x"].map Exc.str),
           String.intercalate ", "
             ((sortPairs (([] : List (String × NestedException)).map
               (fun p => (p.1, p.2.str_)))).map
                 (fun p => p.1 ++ ": [" ++ p.2 ++ "]"))]) :=
  ⟨claim_C2.1 NestedException.empty rfl rfl,
   claim_C2.2.1 [Exc.plain "x"] [] (by simp)⟩

/-- Witness for `claim_C7` at a concrete tree. -/
theorem claim_C7_witness :
    NestedException.getItem (.mk [.plain "a", .plain "b"] [("k", .mk [] [])])
      (.inl 1) = .ok (.plain "b") ∧
    NestedException.getItem (.mk [.plain "a", .plain "b"] [("k", .mk [] [])])
      (.inl 5) = .error .indexError ∧
    NestedException.getItem (.mk [.plain "a", .plain "b"] [("k", .mk [] [])])
      (.inr "k") = .ok (.nested (.mk [] [])) ∧
    NestedException.getItem (.mk [.plain "a", .plain "b"] [("k", .mk [] [])])
      (.inr "zz") = .error .keyError := by
  refine ⟨?_, ?_, ?_, ?_⟩
  · have h := claim_C7.1 (.mk [.plain "a", .plain "b"] [("k", .mk [] [])]) 1
      (by simp)
    simpa using h
  · exact claim_C7.2.1 (.mk [.plain "a", .plain "b"] [("k", .mk [] [])]) 5
      (by simp)
  · exact claim_C7.2.2.1 (.mk [.plain "a", .plain "b"] [("k", .mk [] [])]) "k"
      (.mk [] []) (by simp [lookupSub])
  · exact claim_C7.2.2.2 (.mk [.plain "a", .plain "b"] [("k", .mk [] [])]) "zz"
      (by simp [lookupSub])

/-- Witness for `claim_C4` at concrete inputs. -/
theorem claim_C4_witness :
    (ErrorAggregator.init true).own_error (.plain "x") =
      (⟨(ErrorAggregator.init true).error.add_own (.plain "x"), true⟩,
        some ((ErrorAggregator.init true).error.add_own (.plain "x"))) ∧
    (ErrorAggregator.init true).sub_error "k" (.plain "x") =
      (⟨(ErrorAggregator.init true).error.add_sub "k" (.plain "x"), true⟩,
        some ((ErrorAggregator.init true).error.add_sub "k" (.plain "x"))) ∧
    (ErrorAggregator.init true).checking (fun _ => true) (.error (.plain "x")) =
      (⟨(ErrorAggregator.init true).error.add_own (.plain "x"), true⟩,
        .raisedTree ((ErrorAggregator.init true).error.add_own (.plain "x"))) :=
  ⟨claim_C4.1 (ErrorAggregator.init true) (.plain "x") rfl,
   claim_C4.2.1 (ErrorAggregator.init true) "k" (.plain "x") rfl,
   claim_C4.2.2.1 (fun _ => true) (ErrorAggregator.init true) (.plain "x") rfl rfl⟩

/-- Witness for `claim_C5` at concrete inputs. -/
theorem claim_C5_witness :
    ((ErrorAggregator.init false).checking (fun _ => true)
        (.error (.plain "x"))).1 =
      ((ErrorAggregator.init false).own_error (.plain "x")).1 ∧
    ((ErrorAggregator.init false).checking (fun _ => true)
        (.error (.plain "x"))).2 ≠ .propagated (.plain "x") ∧
    ((ErrorAggregator.init false).checking_sub (fun _ => true) "k"
        (.error (.plain "x"))).1 =
      ((ErrorAggregator.init false).sub_error "k" (.plain "x")).1 ∧
    (ErrorAggregator.init false).checking (fun _ => false)
        (.error (.plain "x")) = (ErrorAggregator.init false, .propagated (.plain "x")) ∧
    (ErrorAggregator.init false).checking_sub (fun _ => false) "k"
        (.error (.plain "x")) = (ErrorAggregator.init false, .propagated (.plain "x")) ∧
    (ErrorAggregator.init false).checking (fun _ => true) (.ok ()) =
      (ErrorAggregator.init false, .ok) :=
  ⟨(claim_C5.1 (fun _ => true) (ErrorAggregator.init false) (.plain "x") rfl).1,
   (claim_C5.1 (fun _ => true) (ErrorAggregator.init false) (.plain "x") rfl).2
     (.plain "x"),
   (claim_C5.2.1 (fun _ => true) (ErrorAggregator.init false) "k" (.plain "x")
     rfl).1,
   claim_C5.2.2.1 (fun _ => false) (ErrorAggregator.init false) (.plain "x") rfl,
   claim_C5.2.2.2.1 (fun _ => false) (ErrorAggregator.init false) "k" (.plain "x")
     rfl,
   claim_C5.2.2.2.2.1 (fun _ => true) (ErrorAggregator.init false)⟩

/-!
## Heap model for the frame property (C10)

The pure embedding above cannot express "`merge` does not mutate its
argument", because Python objects are mutated in place and two
`NestedException` objects could in principle alias.  We therefore give a
second, store-passing translation of `add_own` / `add_sub` / `merge`:
nodes live in a store (a list of nodes addressed by position), a nested
exception value is a reference into the store, and the methods update the
store.  `merge(self, other)` iterates over the snapshot of `other`'s lists,
exactly as the source does; recursion is bounded by explicit fuel because
Python's `merge` diverges on aliased arguments (e.g. `e.merge(e)` appends
to the list it is iterating), and the theorem is stated for every fuel
value that suffices.
-/

/-- A stored Python exception value: a plain message or a reference to a
heap-allocated `NestedException`. -/
inductive ExcV where
  | plain (msg : String)
  | ref (a : Nat)
deriving DecidableEq, Repr

/-- The state of one `NestedException` object: its `own_errors` list and
its `sub_errors` ordered dict, values being references. -/
structure Node where
  own : List ExcV
  subs : List (String × Nat)
deriving DecidableEq, Repr

/-- The heap: node `a` lives at position `a`; allocation appends. -/
abbrev Store := List Node

/-- First binding of a key in a `sub_errors` dict. -/
def lookupKey (k : String) : List (String × Nat) → Option Nat
  | [] => none
  | p :: rest => if p.1 = k then some p.2 else lookupKey k rest

mutual

/-- `add_own` on the node at `a`: a plain exception is appended to `own`;
a reference is merged.  Returns `none` when out of fuel or when `a` is
dangling. -/
def addOwnS : Nat → Store → Nat → ExcV → Option Store
  | 0, _, _, _ => none
  | _ + 1, σ, a, .plain m =>
    match σ.get? a with
    | some nd => some (σ.set a ⟨nd.own ++ [.plain m], nd.subs⟩)
    | none => none
  | fuel + 1, σ, a, .ref r => mergeS fuel σ a r

/-- `add_sub` on the node at `a`:
`self.sub_errors.setdefault(key, type(self)()).add_own(exc)` — when the key
is absent a fresh empty node is allocated at the end of the store and bound
to the key first, then `add_own` runs on the (existing or fresh) child. -/
def addSubS : Nat → Store → Nat → String → ExcV → Option Store
  | 0, _, _, _, _ => none
  | fuel + 1, σ, a, k, e =>
    match σ.get? a with
    | some nd =>
      match lookupKey k nd.subs with
      | some c => addOwnS fuel σ c e
      | none =>
        addOwnS fuel ((σ.set a ⟨nd.own, nd.subs ++ [(k, σ.length)]⟩) ++ [⟨[], []⟩])
          σ.length e
    | none => none

/-- `merge(self, other)` for the nodes at `a` and `b`: replay `other`'s own
errors, then its sub errors. -/
def mergeS : Nat → Store → Nat → Nat → Option Store
  | 0, _, _, _ => none
  | fuel + 1, σ, a, b =>
    match σ.get? b with
    | some nd =>
      match goOwnS fuel σ a nd.own with
      | some σ2 => goSubsS fuel σ2 a nd.subs
      | none => none
    | none => none

/-- `for own in other.own_errors: self.add_own(own)`. -/
def goOwnS : Nat → Store → Nat → List ExcV → Option Store
  | 0, _, _, _ => none
  | _ + 1, σ, _, [] => some σ
  | fuel + 1, σ, a, e :: es =>
    match addOwnS fuel σ a e with
    | some σ2 => goOwnS fuel σ2 a es
    | none => none

/-- `for key, sub in other.sub_errors.items(): self.add_sub(key, sub)`. -/
def goSubsS : Nat → Store → Nat → List (String × Nat) → Option Store
  | 0, _, _, _ => none
  | _ + 1, σ, _, [] => some σ
  | fuel + 1, σ, a, (k, c) :: rest =>
    match addSubS fuel σ a k (.ref c) with
    | some σ2 => goSubsS fuel σ2 a rest
    | none => none

end

/-- Reachability in the store: the addresses of the nodes that make up the
tree rooted at an address (through `sub_errors` references and any
`own_errors` references). -/
inductive Reach (σ : Store) : Nat → Nat → Prop where
  | refl (a : Nat) : Reach σ a a
  | sub {a b c : Nat} {nd : Node} {k : String} :
      Reach σ a b → σ.get? b = some nd → (k, c) ∈ nd.subs → Reach σ a c
  | own {a b c : Nat} {nd : Node} :
      Reach σ a b → σ.get? b = some nd → ExcV.ref c ∈ nd.own → Reach σ a c

/-- A node with no references reaches only itself. -/
lemma reach_singleton {σ : Store} {a : Nat} {nd : Node}
    (h : σ.get? a = some nd) (hs : nd.subs = [])
    (ho : ∀ c, ExcV.ref c ∉ nd.own) :
    ∀ x, Reach σ a x → x = a := by
  intro x hx
  induction hx with
  | refl => rfl
  | sub hr hnd hmem ih =>
    rw [ih] at hnd
    rw [h] at hnd
    cases hnd
    rw [hs] at hmem
    simp at hmem
  | own hr hnd hmem ih =>
    rw [ih] at hnd
    rw [h] at hnd
    cases hnd
    exact absurd hmem (ho _)

lemma Reach.trans {σ : Store} {a b c : Nat}
    (h1 : Reach σ a b) (h2 : Reach σ b c) : Reach σ a c := by
  induction h2 with
  | refl => exact h1
  | sub hr hnd hmem ih => exact Reach.sub ih hnd hmem
  | own hr hnd hmem ih => exact Reach.own ih hnd hmem

/-- Replacing a node by one with the same `subs` and no new own-references
cannot create reachability. -/
lemma reach_set_plain {σ : Store} {a : Nat} {nd nd2 : Node}
    (h : σ.get? a = some nd) (hsub : nd2.subs = nd.subs)
    (hown : ∀ c, ExcV.ref c ∈ nd2.own → ExcV.ref c ∈ nd.own) :
    ∀ r x, Reach (σ.set a nd2) r x → Reach σ r x := by
  intro r x hx
  induction hx with
  | refl => exact Reach.refl _
  | sub hr hnd hmem ih =>
    rename_i b2 c2 nd3 k2
    by_cases hb : b2 = a
    · subst hb
      have hlt : b2 < σ.length := (List.get?_eq_some.mp h).1
      rw [List.get?_set_eq_of_lt _ hlt] at hnd
      cases hnd
      rw [hsub] at hmem
      exact Reach.sub ih h hmem
    · rw [List.get?_set_ne _ _ (fun hc => hb hc.symm)] at hnd
      exact Reach.sub ih hnd hmem
  | own hr hnd hmem ih =>
    rename_i b2 c2 nd3
    by_cases hb : b2 = a
    · subst hb
      have hlt : b2 < σ.length := (List.get?_eq_some.mp h).1
      rw [List.get?_set_eq_of_lt _ hlt] at hnd
      cases hnd
      exact Reach.own ih h (hown _ hmem)
    · rw [List.get?_set_ne _ _ (fun hc => hb hc.symm)] at hnd
      exact Reach.own ih hnd hmem

/-- After binding a fresh key of `a` to a newly allocated empty node, an
old address is reachable only if it already was. -/
lemma reach_alloc {σ : Store} {a : Nat} {nd : Node} {k : String}
    (h : σ.get? a = some nd) :
    ∀ r x,
      Reach ((σ.set a ⟨nd.own, nd.subs ++ [(k, σ.length)]⟩) ++ [⟨[], []⟩]) r x →
      x < σ.length → Reach σ r x := by
  have hlt : a < σ.length := (List.get?_eq_some.mp h).1
  intro r x hx
  induction hx with
  | refl =>
    intro _
    exact Reach.refl _
  | sub hr hnd hmem ih =>
    rename_i b2 c2 nd3 k2
    intro hc2
    rcases Nat.lt_trichotomy b2 σ.length with hb | hb | hb
    · have hb2 : ((σ.set a ⟨nd.own, nd.subs ++ [(k, σ.length)]⟩) ++
          [(⟨[], []⟩ : Node)]).get? b2 = (σ.set a ⟨nd.own, nd.subs ++ [(k, σ.length)]⟩).get? b2 :=
        List.get?_append (by simpa using hb)
      rw [hb2] at hnd
      by_cases hba : b2 = a
      · subst hba
        rw [List.get?_set_eq_of_lt _ hlt] at hnd
        cases hnd
        simp only [List.mem_append, List.mem_singleton] at hmem
        rcases hmem with h1 | h1
        · exact Reach.sub (ih hb) h h1
        · cases h1
          omega
      · rw [List.get?_set_ne _ _ (fun hc => hba hc.symm)] at hnd
        exact Reach.sub (ih hb) hnd hmem
    · have hcl := List.get?_concat_length
        (σ.set a ⟨nd.own, nd.subs ++ [(k, σ.length)]⟩) (⟨[], []⟩ : Node)
      rw [show (σ.set a ⟨nd.own, nd.subs ++ [(k, σ.length)]⟩).length = σ.length from by
        simp] at hcl
      rw [hb, hcl] at hnd
      cases hnd
      simp at hmem
    · rw [List.get?_eq_none.mpr (by simp; omega)] at hnd
      cases hnd
  | own hr hnd hmem ih =>
    rename_i b2 c2 nd3
    intro hc2
    rcases Nat.lt_trichotomy b2 σ.length with hb | hb | hb
    · have hb2 : ((σ.set a ⟨nd.own, nd.subs ++ [(k, σ.length)]⟩) ++
          [(⟨[], []⟩ : Node)]).get? b2 = (σ.set a ⟨nd.own, nd.subs ++ [(k, σ.length)]⟩).get? b2 :=
        List.get?_append (by simpa using hb)
      rw [hb2] at hnd
      by_cases hba : b2 = a
      · subst hba
        rw [List.get?_set_eq_of_lt _ hlt] at hnd
        cases hnd
        exact Reach.own (ih hb) h hmem
      · rw [List.get?_set_ne _ _ (fun hc => hba hc.symm)] at hnd
        exact Reach.own (ih hb) hnd hmem
    · have hcl := List.get?_concat_length
        (σ.set a ⟨nd.own, nd.subs ++ [(k, σ.length)]⟩) (⟨[], []⟩ : Node)
      rw [show (σ.set a ⟨nd.own, nd.subs ++ [(k, σ.length)]⟩).length = σ.length from by
        simp] at hcl
      rw [hb, hcl] at hnd
      cases hnd
      simp at hmem
    · rw [List.get?_eq_none.mpr (by simp; omega)] at hnd
      cases hnd

/-- A successful `lookupKey` exhibits a dict entry. -/
lemma lookupKey_mem {k : String} {l : List (String × Nat)} {c : Nat}
    (h : lookupKey k l = some c) : (k, c) ∈ l := by
  induction l with
  | nil => simp [lookupKey] at h
  | cons p rest ih =>
    rw [lookupKey] at h
    by_cases hk : p.1 = k
    · rw [if_pos hk] at h
      cases h
      have hpe : (k, p.2) = p := by
        rw [← hk]
      rw [hpe]
      exact List.mem_cons_self _ _
    · rw [if_neg hk] at h
      exact List.mem_cons_of_mem _ (ih h)

/-- The frame property of every store operation, by induction on fuel:
an operation rooted at address `a` (1) only grows the store, (2) leaves
every old address not reachable from `a` untouched, and (3) creates no
reachability towards old addresses that was not already there. -/
lemma frame_master : ∀ fuel : Nat,
    (∀ σ a e σ2, addOwnS fuel σ a e = some σ2 →
      σ.length ≤ σ2.length ∧
      (∀ x, x < σ.length → ¬ Reach σ a x → σ2.get? x = σ.get? x) ∧
      (∀ r x, x < σ.length → Reach σ2 r x → Reach σ r x)) ∧
    (∀ σ a k e σ2, addSubS fuel σ a k e = some σ2 →
      σ.length ≤ σ2.length ∧
      (∀ x, x < σ.length → ¬ Reach σ a x → σ2.get? x = σ.get? x) ∧
      (∀ r x, x < σ.length → Reach σ2 r x → Reach σ r x)) ∧
    (∀ σ a b σ2, mergeS fuel σ a b = some σ2 →
      σ.length ≤ σ2.length ∧
      (∀ x, x < σ.length → ¬ Reach σ a x → σ2.get? x = σ.get? x) ∧
      (∀ r x, x < σ.length → Reach σ2 r x → Reach σ r x)) ∧
    (∀ σ a l σ2, goOwnS fuel σ a l = some σ2 →
      σ.length ≤ σ2.length ∧
      (∀ x, x < σ.length → ¬ Reach σ a x → σ2.get? x = σ.get? x) ∧
      (∀ r x, x < σ.length → Reach σ2 r x → Reach σ r x)) ∧
    (∀ σ a l σ2, goSubsS fuel σ a l = some σ2 →
      σ.length ≤ σ2.length ∧
      (∀ x, x < σ.length → ¬ Reach σ a x → σ2.get? x = σ.get? x) ∧
      (∀ r x, x < σ.length → Reach σ2 r x → Reach σ r x)) := by
  intro fuel
  induction fuel with
  | zero =>
    refine ⟨?_, ?_, ?_, ?_, ?_⟩
    · intro σ a e σ2 h
      simp [addOwnS] at h
    · intro σ a k e σ2 h
      simp [addSubS] at h
    · intro σ a b σ2 h
      simp [mergeS] at h
    · intro σ a l σ2 h
      simp [goOwnS] at h
    · intro σ a l σ2 h
      simp [goSubsS] at h
  | succ fuel ih =>
    obtain ⟨ihAO, ihAS, ihM, ihGO, ihGS⟩ := ih
    refine ⟨?_, ?_, ?_, ?_, ?_⟩
    · -- addOwnS
      intro σ a e σ2 h
      match e with
      | .plain m =>
        simp only [addOwnS] at h
        split at h
        · rename_i nd hnd
          cases h
          refine ⟨by simp, ?_, ?_⟩
          · intro x hx hnr
            have hxa : x ≠ a := fun hc => hnr (by rw [hc]; exact Reach.refl a)
            exact List.get?_set_ne _ _ (fun hc => hxa hc.symm)
          · intro r x _ hr
            refine @reach_set_plain σ a nd ⟨nd.own ++ [ExcV.plain m], nd.subs⟩
              hnd rfl ?_ r x hr
            intro c hc
            rcases List.mem_append.mp hc with h1 | h1
            · exact h1
            · simp at h1
        · cases h
      | .ref rr =>
        simp only [addOwnS] at h
        exact ihM σ a rr σ2 h
    · -- addSubS
      intro σ a k e σ2 h
      simp only [addSubS] at h
      split at h
      · rename_i nd hnd
        split at h
        · rename_i c hlk
          have hres := ihAO σ c e σ2 h
          have hac : Reach σ a c :=
            Reach.sub (Reach.refl a) hnd (lookupKey_mem hlk)
          refine ⟨hres.1, ?_, hres.2.2⟩
          intro x hx hnr
          refine hres.2.1 x hx ?_
          intro hcx
          exact hnr (hac.trans hcx)
        · rename_i hlk
          have hget : ((σ.set a ⟨nd.own, nd.subs ++ [(k, σ.length)]⟩) ++
              [(⟨[], []⟩ : Node)]).get? σ.length = some ⟨[], []⟩ := by
            have hcl := List.get?_concat_length
              (σ.set a ⟨nd.own, nd.subs ++ [(k, σ.length)]⟩) (⟨[], []⟩ : Node)
            rw [show (σ.set a ⟨nd.own, nd.subs ++ [(k, σ.length)]⟩).length =
              σ.length from by simp] at hcl
            exact hcl
          have hres := ihAO _ σ.length e σ2 h
          have hlen2 : ((σ.set a ⟨nd.own, nd.subs ++ [(k, σ.length)]⟩) ++
              [(⟨[], []⟩ : Node)]).length = σ.length + 1 := by simp
          refine ⟨by omega, ?_, ?_⟩
          · intro x hx hnr
            have hxa : x ≠ a := fun hc => hnr (by rw [hc]; exact Reach.refl a)
            have hstep : ((σ.set a ⟨nd.own, nd.subs ++ [(k, σ.length)]⟩) ++
                [(⟨[], []⟩ : Node)]).get? x = σ.get? x := by
              rw [List.get?_append (by simpa using hx)]
              exact List.get?_set_ne _ _ (fun hc => hxa hc.symm)
            rw [← hstep]
            refine hres.2.1 x (by omega) ?_
            intro hrx
            have := reach_singleton hget rfl (by simp) x hrx
            omega
          · intro r x hx hr
            exact reach_alloc hnd r x (hres.2.2 r x (by omega) hr) hx
      · cases h
    · -- mergeS
      intro σ a b σ2 h
      simp only [mergeS] at h
      split at h
      · rename_i nd hnd
        split at h
        · rename_i σmid hgo
          have h1 := ihGO σ a nd.own σmid hgo
          have h2 := ihGS σmid a nd.subs σ2 h
          refine ⟨le_trans h1.1 h2.1, ?_, ?_⟩
          · intro x hx hnr
            have hmid : ¬ Reach σmid a x := fun hc => hnr (h1.2.2 a x hx hc)
            rw [h2.2.1 x (lt_of_lt_of_le hx h1.1) hmid, h1.2.1 x hx hnr]
          · intro r x hx hr
            exact h1.2.2 r x hx (h2.2.2 r x (lt_of_lt_of_le hx h1.1) hr)
        · cases h
      · cases h
    · -- goOwnS
      intro σ a l σ2 h
      match l with
      | [] =>
        simp only [goOwnS] at h
        cases h
        exact ⟨le_rfl, fun x _ _ => rfl, fun r x _ hr => hr⟩
      | e :: es =>
        simp only [goOwnS] at h
        split at h
        · rename_i σmid hao
          have h1 := ihAO σ a e σmid hao
          have h2 := ihGO σmid a es σ2 h
          refine ⟨le_trans h1.1 h2.1, ?_, ?_⟩
          · intro x hx hnr
            have hmid : ¬ Reach σmid a x := fun hc => hnr (h1.2.2 a x hx hc)
            rw [h2.2.1 x (lt_of_lt_of_le hx h1.1) hmid, h1.2.1 x hx hnr]
          · intro r x hx hr
            exact h1.2.2 r x hx (h2.2.2 r x (lt_of_lt_of_le hx h1.1) hr)
        · cases h
    · -- goSubsS
      intro σ a l σ2 h
      match l with
      | [] =>
        simp only [goSubsS] at h
        cases h
        exact ⟨le_rfl, fun x _ _ => rfl, fun r x _ hr => hr⟩
      | (k, c) :: rest =>
        simp only [goSubsS] at h
        split at h
        · rename_i σmid has
          have h1 := ihAS σ a k (.ref c) σmid has
          have h2 := ihGS σmid a rest σ2 h
          refine ⟨le_trans h1.1 h2.1, ?_, ?_⟩
          · intro x hx hnr
            have hmid : ¬ Reach σmid a x := fun hc => hnr (h1.2.2 a x hx hc)
            rw [h2.2.1 x (lt_of_lt_of_le hx h1.1) hmid, h1.2.1 x hx hnr]
          · intro r x hx hr
            exact h1.2.2 r x hx (h2.2.2 r x (lt_of_lt_of_le hx h1.1) hr)
        · cases h

/-- C10: merging is read-only on its argument.  In the store-passing model,
running `n.add_own(t)` — that is, `merge(n, t)` — for trees `n` (at address
`a`) and `t` (at address `b`) that do not share structure leaves every node
of `t`'s tree (every address reachable from `b`) with exactly the same
contents as before, recursively, and `t`'s reachable tree is unchanged;
every modified old address is reachable from `n`. -/
theorem claim_C10 :
    ∀ (fuel : Nat) (σ σ2 : Store) (a b : Nat),
      (∀ x, Reach σ b x → x < σ.length ∧ ¬ Reach σ a x) →
      addOwnS fuel σ a (.ref b) = some σ2 →
      (∀ x, Reach σ b x → σ2.get? x = σ.get? x) ∧
      (∀ x, Reach σ2 b x ↔ Reach σ b x) ∧
      (∀ x, x < σ.length → ¬ Reach σ a x → σ2.get? x = σ.get? x) := by
  intro fuel σ σ2 a b hdis h
  have hm := (frame_master fuel).1 σ a (.ref b) σ2 h
  have hkeep : ∀ x, Reach σ b x → σ2.get? x = σ.get? x := by
    intro x hx
    exact hm.2.1 x (hdis x hx).1 (hdis x hx).2
  refine ⟨hkeep, ?_, hm.2.1⟩
  intro x
  constructor
  · intro hx2
    induction hx2 with
    | refl => exact Reach.refl _
    | sub hr hnd hmem ih =>
      rw [hkeep _ ih] at hnd
      exact Reach.sub ih hnd hmem
    | own hr hnd hmem ih =>
      rw [hkeep _ ih] at hnd
      exact Reach.own ih hnd hmem
  · intro hx
    induction hx with
    | refl => exact Reach.refl _
    | sub hr hnd hmem ih =>
      rw [← hkeep _ hr] at hnd
      exact Reach.sub ih hnd hmem
    | own hr hnd hmem ih =>
      rw [← hkeep _ hr] at hnd
      exact Reach.own ih hnd hmem

/-- Witness for `claim_C10`: merging node 1 into node 0 leaves node 1's
contents unchanged. -/
theorem claim_C10_witness :
    ([⟨[.plain "a", .plain "b"], []⟩, ⟨[.plain "b"], []⟩] : Store).get? 1 =
      ([⟨[.plain "a"], []⟩, ⟨[.plain "b"], []⟩] : Store).get? 1 := by
  have hdis : ∀ x, Reach ([⟨[.plain "a"], []⟩, ⟨[.plain "b"], []⟩] : Store) 1 x →
      x < ([⟨[.plain "a"], []⟩, ⟨[.plain "b"], []⟩] : Store).length ∧
      ¬ Reach ([⟨[.plain "a"], []⟩, ⟨[.plain "b"], []⟩] : Store) 0 x := by
    intro x hx
    have h1 := reach_singleton (σ := [⟨[.plain "a"], []⟩, ⟨[.plain "b"], []⟩])
      (a := 1) rfl rfl (by simp) x hx
    rw [h1]
    refine ⟨by simp, ?_⟩
    intro hc
    have h2 := reach_singleton (σ := [⟨[.plain "a"], []⟩, ⟨[.plain "b"], []⟩])
      (a := 0) rfl rfl (by simp) 1 hc
    simp at h2
  exact (claim_C10 10 [⟨[.plain "a"], []⟩, ⟨[.plain "b"], []⟩]
    [⟨[.plain "a", .plain "b"], []⟩, ⟨[.plain "b"], []⟩] 0 1 hdis
    (by simp [addOwnS, mergeS, goOwnS, goSubsS, List.set])).1
    1 (Reach.refl 1)

end Travesty
